import Mathlib

/-!
A verification development for `parser.py`, a rule-based résumé field
extractor.  The Python source is shallowly embedded: every extractor is
translated to an executable Lean function over `List Char` (wrapped in
`String` at the interfaces), Python floats are modelled as exact rationals
(all confidence constants are short decimals, and the claims under study
concern order and bounds, which are insensitive to the float/rational
difference), and every regular expression of the source is translated to an
explicit scanner that follows Python `re` semantics: leftmost search,
greedy/lazy quantifier order, and explicit backtracking where the pattern
needs it.  ASCII inputs are assumed where Python's Unicode-aware character
classes differ from ASCII ones.
-/

namespace Parser

/-! ## Character classes -/

/-- Python whitespace, as used by `str.split()` / `str.strip()` and by the
regex class `\s`: ASCII whitespace, the C1 separators, NEL, and the Unicode
space separators. -/
def isSpaceChar (c : Char) : Bool :=
  (9 ≤ c.val && c.val ≤ 13) || c.val = 32 || (28 ≤ c.val && c.val ≤ 31) ||
  c.val = 0x85 || c.val = 0xa0 || c.val = 0x1680 ||
  (0x2000 ≤ c.val && c.val ≤ 0x200a) || c.val = 0x2028 || c.val = 0x2029 ||
  c.val = 0x202f || c.val = 0x205f || c.val = 0x3000

/-- The regex class `[ \t]` (space or horizontal tab). -/
def isHT (c : Char) : Bool := c = ' ' || c = '\t'

/-- The regex class `\d`, restricted to ASCII digits. -/
def isDigitC (c : Char) : Bool := '0' ≤ c && c ≤ '9'

/-- The regex class `[A-Za-z]`. -/
def isAlphaC (c : Char) : Bool := ('A' ≤ c && c ≤ 'Z') || ('a' ≤ c && c ≤ 'z')

/-- The regex class `[A-Z]`. -/
def isUpperAZ (c : Char) : Bool := 'A' ≤ c && c ≤ 'Z'

/-- The regex class `[a-z]`. -/
def isLowerAZ (c : Char) : Bool := 'a' ≤ c && c ≤ 'z'

/-- The regex class `[a-z0-9]` used by the skill word-boundary lookarounds. -/
def isLowAlnum (c : Char) : Bool := isLowerAZ c || isDigitC c

/-- The regex class `[A-Za-z0-9]` (plus the characters listed) used by the
contact patterns. -/
def isAlnumC (c : Char) : Bool := isAlphaC c || isDigitC c

/-! ## Generic search helpers -/

/-- Return the first `some` produced by `f` along `l`, in order.  This is the
backbone of every backtracking choice point: the list enumerates the
alternatives in the order the Python regex engine would try them. -/
def firstSome : List α → (α → Option β) → Option β
  | [], _ => none
  | a :: l, f =>
    match f a with
    | some b => some b
    | none => firstSome l f

/-- Match a literal (case-sensitive); on success return the remainder. -/
def dropLit : List Char → List Char → Option (List Char)
  | [], l => some l
  | _ :: _, [] => none
  | p :: ps, c :: cs => if c = p then dropLit ps cs else none

/-- Match a literal case-insensitively (both sides lowered, as Python's
`re.I` does for ASCII); on success return the remainder. -/
def dropLitCI : List Char → List Char → Option (List Char)
  | [], l => some l
  | _ :: _, [] => none
  | p :: ps, c :: cs => if c.toLower = p.toLower then dropLitCI ps cs else none

/-- `re.search` position loop: try `f` at every suffix of `l`, leftmost
first; the final empty suffix is the end-of-string position. -/
def searchSuffixes (f : List Char → Option β) : List Char → Option β
  | [] => f []
  | c :: cs =>
    match f (c :: cs) with
    | some b => some b
    | none => searchSuffixes f cs

/-- Substring test (`pat in s` for Python strings). -/
def hasSub (pat : List Char) : List Char → Bool
  | [] => (dropLit pat []).isSome
  | c :: cs => (dropLit pat (c :: cs)).isSome || hasSub pat cs

/-- `sep.join(words)`. -/
def joinSep (sep : List Char) : List (List Char) → List Char
  | [] => []
  | [w] => w
  | w :: ws => w ++ sep ++ joinSep sep ws

/-! ## Python string-method models -/

theorem dropWhile_length_le (p : α → Bool) (l : List α) :
    (l.dropWhile p).length ≤ l.length := by
  induction l with
  | nil => simp [List.dropWhile]
  | cons c cs ih =>
    by_cases h : p c
    · simp only [List.dropWhile, h]
      exact Nat.le_succ_of_le ih
    · simp [List.dropWhile, h]

/-- `str.split()` with no argument: maximal runs of non-whitespace.  `cur`
is the (possibly empty) word being accumulated. -/
def pySplitAux (cur : List Char) : List Char → List (List Char)
  | [] => if cur.isEmpty then [] else [cur]
  | c :: cs =>
    if isSpaceChar c then
      if cur.isEmpty then pySplitAux [] cs else cur :: pySplitAux [] cs
    else pySplitAux (cur ++ [c]) cs

def pySplit (l : List Char) : List (List Char) := pySplitAux [] l

/-- Line-break characters recognised by `str.splitlines` other than the
`"\r\n"` pair, which is handled separately. -/
def isLineBreak (c : Char) : Bool :=
  c = '\n' || c = '\r' || c.val = 11 || c.val = 12 ||
  (28 ≤ c.val && c.val ≤ 30) || c.val = 0x85 || c.val = 0x2028 || c.val = 0x2029

/-- `str.splitlines()`: `cur` is the line accumulated so far. -/
def pySplitlinesAux (cur : List Char) : List Char → List (List Char)
  | [] => if cur = [] then [] else [cur]
  | '\r' :: '\n' :: rest => cur :: pySplitlinesAux [] rest
  | c :: rest =>
    if isLineBreak c then cur :: pySplitlinesAux [] rest
    else pySplitlinesAux (cur ++ [c]) rest

def pySplitlines (l : List Char) : List (List Char) := pySplitlinesAux [] l

/-- Drop trailing characters satisfying `p` (structural form of
`reverse ∘ dropWhile p ∘ reverse`). -/
def dropTrailing (p : Char → Bool) : List Char → List Char
  | [] => []
  | c :: cs =>
    match dropTrailing p cs with
    | [] => if p c then [] else [c]
    | r => c :: r

/-- `str.strip(chars)`: remove the characters of `set` from both ends. -/
def stripSet (set : List Char) (l : List Char) : List Char :=
  dropTrailing (fun c => c ∈ set) (l.dropWhile (fun c => c ∈ set))

/-- `str.strip()` with no argument: strip Python whitespace. -/
def pyStrip (l : List Char) : List Char :=
  dropTrailing isSpaceChar (l.dropWhile isSpaceChar)

/-- `str.lstrip(chars)`. -/
def lstripSet (set : List Char) (l : List Char) : List Char :=
  l.dropWhile (fun c => c ∈ set)

/-- `str.lower()` (ASCII). -/
def pyLower (l : List Char) : List Char := l.map Char.toLower

/-- One step of `str.title()`: uppercase after a non-letter, lowercase
after a letter (ASCII approximation of "cased"). -/
def pyTitleAux : Bool → List Char → List Char
  | _, [] => []
  | prevAlpha, c :: cs =>
    if isAlphaC c then
      (if prevAlpha then c.toLower else c.toUpper) :: pyTitleAux true cs
    else c :: pyTitleAux false cs

/-- `str.title()` (ASCII). -/
def pyTitle (l : List Char) : List Char := pyTitleAux false l

/-- `str.isupper()` (ASCII): at least one letter, and no lowercase letter. -/
def pyIsUpper (l : List Char) : Bool :=
  l.any isAlphaC && l.all (fun c => !isLowerAZ c)

/-- `str.startswith(p)`. -/
def startsWithLit (p : List Char) (l : List Char) : Bool := (dropLit p l).isSome

/-- Lexicographic order on code points, Python's `<` on strings. -/
def lexLt : List Char → List Char → Bool
  | [], [] => false
  | [], _ :: _ => true
  | _ :: _, [] => false
  | a :: as, b :: bs => a.val < b.val || (a = b && lexLt as bs)

/-- Insertion by `lexLt` (used to model `sorted`). -/
def sortedInsert (w : List Char) : List (List Char) → List (List Char)
  | [] => [w]
  | v :: vs => if lexLt w v then w :: v :: vs else v :: sortedInsert w vs

/-- `sorted(l)` for Python strings. -/
def pySorted : List (List Char) → List (List Char)
  | [] => []
  | w :: ws => sortedInsert w (pySorted ws)

/-! ## `remove_duplicate_words` -/

/-- Loop body of `remove_duplicate_words`: keep a word unless its lowering
was seen before; the source keeps `seen` as a list of lowered words. -/
def dedupWordsAux (seen : List (List Char)) : List (List Char) → List (List Char)
  | [] => []
  | w :: ws =>
    if pyLower w ∈ seen then dedupWordsAux seen ws
    else w :: dedupWordsAux (pyLower w :: seen) ws

/-- `remove_duplicate_words(text)`: split on whitespace, drop words whose
lowercase form appeared before, re-join with single spaces.  (The
non-string pass-through branch of the source is not representable and not
needed: the embedding is typed.) -/
def remove_duplicate_words (s : String) : String :=
  ⟨joinSep [' '] (dedupWordsAux [] (pySplit s.data))⟩

/-! ## `clean_text` -/

/-- `text.replace("\x00", " ")`, one character. -/
def nulFix (c : Char) : Char := if c = '\x00' then ' ' else c

/-- `re.sub(r"[ \t]+", " ", text)`: every maximal space/tab run becomes one
space.  Run characters are discarded until the run's last one, which
becomes the single space. -/
def wsCollapse : List Char → List Char
  | [] => []
  | [c] => if isHT c then [' '] else [c]
  | c :: c2 :: cs =>
    if isHT c then
      if isHT c2 then wsCollapse (c2 :: cs) else ' ' :: wsCollapse (c2 :: cs)
    else c :: wsCollapse (c2 :: cs)

/-- `re.sub(r"\r", "\n", text)`, one character. -/
def crFix (c : Char) : Char := if c = '\r' then '\n' else c

/-- Emit a pending newline run of length `st` (counted up to 3): runs of
three or more newlines become exactly two. -/
def nlFlush : Nat → List Char
  | 0 => []
  | 1 => ['\n']
  | 2 => ['\n', '\n']
  | _ => ['\n', '\n']

/-- `re.sub(r"\n 3,  ", "\n\n", text)` (quantifier: three or more) as a
state machine: `st` counts the pending newline run, capped at 3. -/
def nlCollapseAux : Nat → List Char → List Char
  | st, [] => nlFlush st
  | st, c :: cs =>
    if c = '\n' then nlCollapseAux (min (st + 1) 3) cs
    else nlFlush st ++ c :: nlCollapseAux 0 cs

def nlCollapse (l : List Char) : List Char := nlCollapseAux 0 l

/-- `clean_text`: null bytes to spaces, collapse space/tab runs, `\r` to
`\n`, collapse 3+ newlines to two, strip. -/
def clean_text (s : String) : String :=
  ⟨pyStrip (nlCollapse (List.map crFix (wsCollapse (List.map nulFix s.data))))⟩

/-- `is_kannada`: `re.search(r"[ಀ-೿]", text)` is truthy. -/
def is_kannada (s : String) : Bool :=
  s.data.any (fun c => 0xC80 ≤ c.val && c.val ≤ 0xCFF)

/-! ## `extract_name` -/

/-- The decoration characters replaced by spaces in a candidate name line
(regex class of pipe, bullet, asterisk, arrows and dash variants). -/
def decoFix (c : Char) : Char :=
  if c = '|' || c = '•' || c = '*' || c = '►' || c = '◆' ||
     c = '−' || c = '–' || c = '—' || c = '-' then ' ' else c

/-- Pending state of `collapseWs2`: nothing, a single buffered whitespace
character (kept as itself if its run stays at length one), or a run of two
or more (emitted as one space). -/
def ws2Flush : Option (Option Char) → List Char
  | none => []
  | some (some w) => [w]
  | some none => [' ']

/-- `re.sub(r"\s 2,  ", " ", line)` (quantifier: two or more) as a state
machine: a whitespace run of length at least 2 becomes one space; a single
whitespace character is kept as it is. -/
def collapseWs2Aux : Option (Option Char) → List Char → List Char
  | st, [] => ws2Flush st
  | st, c :: cs =>
    if isSpaceChar c then
      collapseWs2Aux (match st with | none => some (some c) | some _ => some none) cs
    else ws2Flush st ++ c :: collapseWs2Aux none cs

def collapseWs2 (l : List Char) : List Char := collapseWs2Aux none l

/-- The set stripped from both ends of a candidate line. -/
def nameStripSet : List Char :=
  [' ', '.', ',', '|', '-', '–', '—', '(', ')', '[', ']', '\x7b', '\x7d']

/-- The keyword denylist marking a line as a header or contact line. -/
def denyList : List (List Char) :=
  [("email").data, ("phone").data, ("linkedin").data, ("github").data,
   ("cgpa").data, ("education").data, ("skills").data, ("project").data,
   ("experience").data]

/-- Line cleanup before candidate extraction: decoration characters to
spaces, long whitespace runs collapsed, punctuation stripped from the
ends. -/
def processLine (l : List Char) : List Char :=
  stripSet nameStripSet (collapseWs2 (l.map decoFix))

/-- `re.split(r"\s 4,  |\t+", line)` (first alternative: 4+ whitespace):
delimiters are whitespace runs of length at least 4, or tab runs; the
first alternative is preferred and is greedy.  (When the run condition
holds, `c` is itself whitespace, so the whole run is `c` plus the dropped
part of `cs`.)  Fuel is the text length plus one; every step consumes a
character. -/
def splitCandsF : Nat → List Char → List Char → List (List Char)
  | 0, cur, _ => [cur]
  | _ + 1, cur, [] => [cur]
  | fuel + 1, cur, c :: cs =>
    if 4 ≤ ((c :: cs).takeWhile isSpaceChar).length then
      cur :: splitCandsF fuel [] (cs.dropWhile isSpaceChar)
    else if c = '\t' then
      cur :: splitCandsF fuel [] (cs.dropWhile (fun d => d == '\t'))
    else splitCandsF fuel (cur ++ [c]) cs

def splitCands (l : List Char) : List (List Char) := splitCandsF (l.length + 1) [] l

/-- The regex class `[A-Za-z'.-]` of the strong-name pattern. -/
def isNameClass (c : Char) : Bool :=
  isAlphaC c || c = Char.ofNat 39 || c = '.' || c = '-'

/-- `re.match(r"^[A-Z][A-Za-z'.-]+\s+[A-Z][A-Za-z'.-]+", name)`: the class
and whitespace are disjoint, so greedy matching is deterministic here. -/
def namePat : List Char → Bool
  | [] => false
  | c :: rest =>
    isUpperAZ c &&
      (let r1 := rest.takeWhile isNameClass
       !r1.isEmpty &&
         (let rest2 := rest.drop r1.length
          let ws := rest2.takeWhile isSpaceChar
          !ws.isEmpty &&
            (match rest2.drop ws.length with
             | c2 :: rest3 => isUpperAZ c2 && !(rest3.takeWhile isNameClass).isEmpty
             | [] => false)))

/-- Python `w[0].isupper()` for a split word (ASCII). -/
def wordHeadUpper : List Char → Bool
  | c :: _ => isUpperAZ c
  | [] => false

/-- The inner candidate loop of `extract_name`.  `seen` is the set of
lowered names; in the source it is only extended immediately before a
`return`, so it never grows between iterations. -/
def candScan (seen : List (List Char)) : List (List Char) → Option (String × ℚ)
  | [] => none
  | name :: rest =>
    let words := pySplit name
    if words.length < 2 || 5 < words.length then candScan seen rest
    else if pyLower name ∈ seen then candScan seen rest
    else if namePat name then some (⟨name⟩, 0.99)
    else if words.all wordHeadUpper then some (⟨name⟩, 0.97)
    else candScan seen rest

/-- The per-line loop of `extract_name`: skip short lines and lines holding
a denylist keyword, then scan the column-split candidates. -/
def lineScan (seen : List (List Char)) : List (List Char) → Option (String × ℚ)
  | [] => none
  | line :: rest =>
    let l := processLine line
    if l.length < 5 then lineScan seen rest
    else if denyList.any (fun kw => hasSub kw (pyLower l)) then lineScan seen rest
    else
      match candScan seen ((splitCands l).map pyStrip |>.filter (fun c => !c.isEmpty)) with
      | some r => some r
      | none => lineScan seen rest

/-- The first 30 lines of the text that are non-blank, as `extract_name`
collects them. -/
def nameLines (s : String) : List (List Char) :=
  ((pySplitlines s.data).take 30).filter (fun l => !(pyStrip l).isEmpty)

/-- The line-scanning phase of `extract_name` (everything before the email
fallback). -/
def nameFromLines (s : String) : Option (String × ℚ) :=
  lineScan [] (nameLines s)

/-- `[n, n-1, ..., 1]`: the lengths a greedy `+` quantifier tries, longest
first. -/
def descRange (n : Nat) : List Nat := (List.range n).reverse.map (· + 1)

/-- One attempt of `re.search(r"([a-zA-Z]+)[\._]?([a-zA-Z]+)?@", text)` at a
fixed position: explicit backtracking over the first group's length
(greedy), the optional separator (present first), and the optional second
group (longest first, then absent), then the literal `@`. -/
def emailNameAt (l : List Char) : Option (List Char × Option (List Char)) :=
  firstSome (descRange (l.takeWhile isAlphaC).length) fun k =>
    let g1 := l.take k
    let rest := l.drop k
    let sepOpts : List (List Char) :=
      match rest with
      | c :: cr => if c = '.' || c = '_' then [cr, rest] else [rest]
      | [] => [rest]
    firstSome sepOpts fun rest1 =>
      let g2opts : List (Option (List Char) × List Char) :=
        ((descRange (rest1.takeWhile isAlphaC).length).map
          (fun j => (some (rest1.take j), rest1.drop j))) ++ [(none, rest1)]
      firstSome g2opts fun g2r =>
        match g2r.2 with
        | c :: _ => if c = '@' then some (g1, g2r.1) else none
        | [] => none

/-- `extract_name`: scan the first 30 non-blank lines for a name candidate;
fall back to a name derived from the first email-looking match; fall back
to `"Unknown"`. -/
def extract_name (text : String) : String × ℚ :=
  match nameFromLines text with
  | some r => r
  | none =>
    match searchSuffixes emailNameAt text.data with
    | some (g1, g2) =>
      (⟨pyStrip (pyTitle g1 ++ ' ' ::
          (match g2 with | some w => pyTitle w | none => []))⟩, 0.85)
    | none => (("Unknown" : String), 0.1)

/-! ## `extract_contacts` -/

structure Contacts where
  phone : Option String
  email : Option String
  linkedin : Option String
  github : Option String
deriving DecidableEq, Repr

/-- One attempt of `re.search(r"(\+91[- ]?)?[6-9]\d 9 ", text)` (quantifier:
exactly nine) at a fixed position; the optional `+91` prefix and its
optional separator are tried present-first.  Returns the whole match
(`group(0)`). -/
def tryPhone (l : List Char) : Option (List Char) :=
  let cands : List (List Char × List Char) :=
    (match l with
     | '+' :: '9' :: '1' :: rest =>
       (match rest with
        | c :: rest2 =>
          if c = '-' || c = ' ' then [(['+', '9', '1', c], rest2), (['+', '9', '1'], rest)]
          else [(['+', '9', '1'], rest)]
        | [] => [(['+', '9', '1'], rest)])
     | _ => []) ++ [([], l)]
  firstSome cands fun pr =>
    match pr.2 with
    | c :: cr =>
      if '6' ≤ c && c ≤ '9' then
        let ds := cr.takeWhile isDigitC
        if 9 ≤ ds.length then some (pr.1 ++ c :: ds.take 9) else none
      else none
    | [] => none

/-- The regex class `[A-Za-z0-9._%+-]` (email local part). -/
def emailClass1 (c : Char) : Bool :=
  isAlnumC c || c = '.' || c = '_' || c = '%' || c = '+' || c = '-'

/-- The regex class `[A-Za-z0-9.-]` (email domain). -/
def emailClass2 (c : Char) : Bool := isAlnumC c || c = '.' || c = '-'

/-- One attempt of the full email pattern
`[A-Za-z0-9._%+-]+@[A-Za-z0-9.-]+\.[A-Za-z] 2,  ` at a fixed position: the
local part and `@` are deterministic, the domain run backtracks (longest
first) to leave a dot followed by at least two letters; the final letter
run is greedy.  Returns the whole match. -/
def tryEmail (l : List Char) : Option (List Char) :=
  let l1 := l.takeWhile emailClass1
  if l1.isEmpty then none
  else
    match l.drop l1.length with
    | '@' :: rest =>
      firstSome (descRange (rest.takeWhile emailClass2).length) fun j =>
        match rest.drop j with
        | '.' :: after =>
          let lrun := after.takeWhile isAlphaC
          if 2 ≤ lrun.length then some (l1 ++ '@' :: rest.take j ++ '.' :: lrun)
          else none
        | _ => none
    | _ => none

/-- The regex class `[A-Za-z0-9\-_]` of the linkedin/github handles. -/
def handleClass (c : Char) : Bool := isAlnumC c || c = '-' || c = '_'

/-- One attempt of `(linkedin\.com/in/[A-Za-z0-9\-_]+)` (case-insensitive)
at a fixed position; returns the matched text in its original casing. -/
def tryLinkedin (l : List Char) : Option (List Char) :=
  let lit := ("linkedin.com/in/").data
  match dropLitCI lit l with
  | some rest =>
    let run := rest.takeWhile handleClass
    if run.isEmpty then none else some (l.take lit.length ++ run)
  | none => none

/-- One attempt of `(github\.com/[A-Za-z0-9\-_]+)` (case-insensitive) at a
fixed position. -/
def tryGithub (l : List Char) : Option (List Char) :=
  let lit := ("github.com/").data
  match dropLitCI lit l with
  | some rest =>
    let run := rest.takeWhile handleClass
    if run.isEmpty then none else some (l.take lit.length ++ run)
  | none => none

/-- `extract_contacts`: the four independent searches, each present field
adding its fixed weight, the total capped at 0.99. -/
def extract_contacts (text : String) : Contacts × ℚ :=
  let phone := searchSuffixes tryPhone text.data
  let email := searchSuffixes tryEmail text.data
  let linkedin := searchSuffixes tryLinkedin text.data
  let github := searchSuffixes tryGithub text.data
  let score : ℚ :=
    (if phone.isSome then 0.35 else 0) + (if email.isSome then 0.35 else 0) +
    (if linkedin.isSome then 0.2 else 0) + (if github.isSome then 0.2 else 0)
  (⟨phone.map (fun w => ⟨w⟩), email.map (fun w => ⟨w⟩),
    linkedin.map (fun w => ⟨w⟩), github.map (fun w => ⟨w⟩)⟩, min score 0.99)

/-! ## `extract_skills` -/

/-- `re.search` for the pattern `(?<![a-z0-9])SKILL(?![a-z0-9])` over the
lowered text: a literal occurrence whose neighbouring characters are not
lowercase alphanumerics.  `prevOk` says the character before the current
position is not in the class (true at the start of the text). -/
def skillScan (pat : List Char) (prevOk : Bool) : List Char → Bool
  | [] =>
    prevOk && (match dropLit pat [] with | some _ => true | none => false)
  | c :: cs =>
    (prevOk &&
      (match dropLit pat (c :: cs) with
       | some rest =>
         match rest with
         | r :: _ => !isLowAlnum r
         | [] => true
       | none => false)) ||
    skillScan pat (!isLowAlnum c) cs

/-- `extract_skills`: whole-word search of each vocabulary term over the
lowered text; hits are recorded title-cased in a set, then sorted.  The
score is 0.1 with no hit, otherwise scaled by the matched fraction of the
vocabulary (floor on the divisor, cap 0.98). -/
def extract_skills (text : String) (skills_list : List String) : List String × ℚ :=
  let low := pyLower text.data
  let found : List (List Char) :=
    skills_list.foldl
      (fun acc skill =>
        if skillScan (pyLower skill.data) true low then
          (let t := pyTitle skill.data
           if t ∈ acc then acc else acc ++ [t])
        else acc) []
  let score : ℚ :=
    if found.isEmpty then 0.1
    else min (0.3 + 0.7 * (found.length : ℚ) / ((max 1 (skills_list.length / 5) : ℕ) : ℚ)) 0.98
  ((pySorted found).map (fun w => (⟨w⟩ : String)), score)

/-! ## `extract_cgpa` -/

/-- One attempt of `\d+\.\d 1,2 ` (one to two decimals) at a fixed position:
greedy digits, a dot, then up to two decimal digits.  Returns the matched
numeral and the remainder after it. -/
def floatAt (l : List Char) : Option (List Char × List Char) :=
  let d1 := l.takeWhile isDigitC
  if d1.isEmpty then none
  else
    match l.drop d1.length with
    | '.' :: rest =>
      let d2 := (rest.takeWhile isDigitC).take 2
      if d2.isEmpty then none else some (d1 ++ '.' :: d2, rest.drop d2.length)
    | _ => none

/-- The lazy `.*?` before the numeral in the labelled patterns: advance to
the first position where the numeral matches, never crossing a newline
(the dot does not match `\n`). -/
def scanLineFloat : List Char → Option (List Char)
  | [] => none
  | c :: cs =>
    match floatAt (c :: cs) with
    | some r => some r.1
    | none => if c = '\n' then none else scanLineFloat cs

/-- One attempt of `(\d+\.\d 1,2 )\s*/\s*10` at a fixed position.  The
whitespace runs are disjoint from `/` and `1`, so greedy skipping is
deterministic. -/
def tryS10 (l : List Char) : Option (List Char) :=
  match floatAt l with
  | some nr =>
    (match nr.2.dropWhile isSpaceChar with
     | '/' :: r2 =>
       (match r2.dropWhile isSpaceChar with
        | '1' :: '0' :: _ => some nr.1
        | _ => none)
     | _ => none)
  | none => none

/-- One attempt of `(\d+\.\d 1,2 )\s*out\s*of\s*10` (case-insensitive) at a
fixed position. -/
def tryOutOf10 (l : List Char) : Option (List Char) :=
  match floatAt l with
  | some nr =>
    (match dropLitCI (("out").data) (nr.2.dropWhile isSpaceChar) with
     | some r2 =>
       (match dropLitCI (("of").data) (r2.dropWhile isSpaceChar) with
        | some r4 =>
          (match r4.dropWhile isSpaceChar with
           | '1' :: '0' :: _ => some nr.1
           | _ => none)
        | none => none)
     | none => none)
  | none => none

/-- The labelled patterns `CGPA.*?(\d+\.\d 1,2 )` / `GPA.*?(...)`: the label
matched case-insensitively, then the lazy scan on the same line. -/
def tryLabelFloat (label : List Char) (l : List Char) : Option (List Char) :=
  (dropLitCI label l).bind scanLineFloat

/-- `extract_cgpa`: four patterns tried in priority order, each as a full
leftmost search; the first pattern with any match anywhere wins. -/
def extract_cgpa (text : String) : String × ℚ :=
  match searchSuffixes (tryLabelFloat (("cgpa").data)) text.data with
  | some m => (⟨m⟩, 0.99)
  | none =>
    match searchSuffixes (tryLabelFloat (("gpa").data)) text.data with
    | some m => (⟨m⟩, 0.99)
    | none =>
      match searchSuffixes tryS10 text.data with
      | some m => (⟨m⟩, 0.99)
      | none =>
        match searchSuffixes tryOutOf10 text.data with
        | some m => (⟨m⟩, 0.99)
        | none => (("" : String), 0.0)

/-! ## `extract_projects` -/

/-- Group 3 of the section regex: `(\n[A-Z][A-Za-z ] 3,  |$)` under `(?si)`:
the `i` flag makes `[A-Z]` match any letter; with `re.S` and no `re.M`,
`$` is the end of the string or just before a final newline. -/
def secGroup3Ok (l : List Char) : Bool :=
  (match l with
   | '\n' :: c :: rest =>
     isAlphaC c && 3 ≤ (rest.takeWhile (fun d => isAlphaC d || d == ' ')).length
   | _ => false) ||
  l.isEmpty || l == ['\n']

/-- The lazy `(.+?)` of the section regex: grow the captured block one
character at a time (dot-all) until group 3 matches right after it. -/
def secLazy (acc : List Char) : List Char → Option (List Char)
  | [] => none
  | c :: rest =>
    if secGroup3Ok rest then some (acc ++ [c]) else secLazy (acc ++ [c]) rest

/-- `[n, n-1, ..., 0]`: the lengths a greedy `*` quantifier tries. -/
def descRange0 (n : Nat) : List Nat := (List.range (n + 1)).reverse

/-- The tail `\s*[:\-]?\s*(.+?)(...)` of the section regex after the
heading word, with the Python backtracking order: the first whitespace run
longest-first, the optional colon/dash present-first, the second run
longest-first, the capture lazily. -/
def secTail (rest : List Char) : Option (List Char) :=
  firstSome (descRange0 ((rest.takeWhile isSpaceChar).length)) fun n1 =>
    let r1 := rest.drop n1
    let colonOpts : List (List Char) :=
      match r1 with
      | c :: cr => if c = ':' || c = '-' then [cr, r1] else [r1]
      | [] => [r1]
    firstSome colonOpts fun r2 =>
      firstSome (descRange0 ((r2.takeWhile isSpaceChar).length)) fun n2 =>
        secLazy [] (r2.drop n2)

/-- One attempt of the section regex
`(?si)(projects?|project details)\s*[:\-]?\s*(.+?)(\n[A-Z][A-Za-z ] 3,  |$)`
at a fixed position; alternatives of group 1 in the engine's order.
Returns group 2 (the captured block). -/
def secTryAt (l : List Char) : Option (List Char) :=
  let alts : List (List Char) :=
    (match dropLitCI (("projects").data) l with | some r => [r] | none => []) ++
    (match dropLitCI (("project").data) l with | some r => [r] | none => []) ++
    (match dropLitCI (("project details").data) l with | some r => [r] | none => [])
  firstSome alts secTail

/-- `str.split("\n")`. -/
def splitOnNl (cur : List Char) : List Char → List (List Char)
  | [] => [cur]
  | '\n' :: rest => cur :: splitOnNl [] rest
  | c :: rest => splitOnNl (cur ++ [c]) rest

/-- `line.startswith(("•", "-", "*", "• ", "1.", "2."))`. -/
def titleExcluded (l : List Char) : Bool :=
  startsWithLit ['•'] l || startsWithLit ['-'] l || startsWithLit ['*'] l ||
  startsWithLit ['•', ' '] l || startsWithLit ['1', '.'] l || startsWithLit ['2', '.'] l

/-- `re.match(r"^[A-Za-z]. 4,  ", line)` and not a bullet/numbered start: a
new project title line inside the section block. -/
def titleCond (l : List Char) : Bool :=
  (match l with | c :: _ => isAlphaC c | [] => false) && 5 ≤ l.length &&
    !titleExcluded l

/-- `line.startswith(("•", "-", "*"))`. -/
def isBulletLine (l : List Char) : Bool :=
  startsWithLit ['•'] l || startsWithLit ['-'] l || startsWithLit ['*'] l

/-- Append to the last group (`combined[-1].append(line)`); `current` is
only true once a group exists, so the empty case is unreachable. -/
def appendLast (gs : List (List α)) (x : α) : List (List α) :=
  match gs with
  | [] => []
  | [g] => [g ++ [x]]
  | g :: rest => g :: appendLast rest x

/-- The grouping loop over the section block's lines: title lines open a
group, bulleted or long lines extend the current group, all-uppercase
lines are skipped. -/
def secGroupsLoop (groups : List (List (List Char))) (current : Bool) :
    List (List Char) → List (List (List Char))
  | [] => groups
  | line :: rest =>
    if pyIsUpper line then secGroupsLoop groups current rest
    else if titleCond line then secGroupsLoop (groups ++ [[line]]) true rest
    else if current && (isBulletLine line || 3 < (pySplit line).length) then
      secGroupsLoop (appendLast groups line) current rest
    else secGroupsLoop groups current rest

/-- Emit one group: `"title – d1; d2; ..."` with bullet markers
left-stripped from the description lines, or the bare title. -/
def secEmit (g : List (List Char)) : List Char :=
  match g with
  | [] => []
  | title :: descs =>
    let desc := joinSep [';', ' '] (descs.map (lstripSet ['•', '-', '*', ' ']))
    if desc.isEmpty then title else title ++ [' ', '–', ' '] ++ desc

/-- The section-block strategy of `extract_projects`. -/
def secProjects (text : List Char) : List (List Char) :=
  match searchSuffixes secTryAt text with
  | some block =>
    let lines := (splitOnNl [] block).filterMap fun l =>
      let s := pyStrip l
      if 2 < s.length then some s else none
    (secGroupsLoop [] false lines).map secEmit
  | none => []

/-- One attempt of `(?m)^\s*(\d+\.|\(\d+\))\s*(.+)` at a line start: leading
whitespace (which may span lines), the numbered marker, then greedy
whitespace backtracked until the dot has one non-newline character to
consume.  Returns the captured title and the remainder after the match. -/
def tryNumberedAt (l : List Char) : Option (List Char × List Char) :=
  let r0 := l.drop (l.takeWhile isSpaceChar).length
  let afterNum : Option (List Char) :=
    (let ds := r0.takeWhile isDigitC
     if !ds.isEmpty then
       (match r0.drop ds.length with
        | '.' :: r1 => some r1
        | _ => none)
     else none)
  let afterNum : Option (List Char) :=
    match afterNum with
    | some r => some r
    | none =>
      match r0 with
      | '(' :: r1 =>
        (let ds := r1.takeWhile isDigitC
         if !ds.isEmpty then
           (match r1.drop ds.length with
            | ')' :: r2 => some r2
            | _ => none)
         else none)
      | _ => none
  match afterNum with
  | none => none
  | some r2 =>
    firstSome (descRange0 ((r2.takeWhile isSpaceChar).length)) fun n =>
      let r3 := r2.drop n
      let title := r3.takeWhile (fun c => !(c == '\n'))
      if title.isEmpty then none else some (title, r3.drop title.length)

/-- The `re.findall` scan over `(?m)^` positions: try the matcher at the
start of the text and after every newline, continuing after each match
(non-overlapping).  Fuel is the text length plus one; every step consumes
at least one character. -/
def lineStartScan (f : List Char → Option (List Char × List Char)) :
    Nat → Bool → List Char → List (List Char)
  | 0, _, _ => []
  | fuel + 1, atStart, l =>
    if atStart then
      match f l with
      | some (item, rest) => item :: lineStartScan f fuel false rest
      | none =>
        match l with
        | [] => []
        | c :: cs => lineStartScan f fuel (c == '\n') cs
    else
      match l with
      | [] => []
      | c :: cs => lineStartScan f fuel (c == '\n') cs

/-- The terminator `(\n\d+\.|\n[A-Z ] 3,  |$)` of the per-title description
pattern (with `re.S`, no `re.M`). -/
def descTermOk (l : List Char) : Bool :=
  (match l with
   | '\n' :: t =>
     (let ds := t.takeWhile isDigitC
      !ds.isEmpty && (match t.drop ds.length with | '.' :: _ => true | _ => false)) ||
     3 ≤ (t.takeWhile (fun c => isUpperAZ c || c == ' ')).length
   | _ => false) ||
  l.isEmpty || l == ['\n']

/-- The lazy `(.+?)` of the description pattern (dot-all). -/
def descLazy (acc : List Char) : List Char → Option (List Char)
  | [] => none
  | c :: rest =>
    if descTermOk rest then some (acc ++ [c]) else descLazy (acc ++ [c]) rest

/-- Index of the last newline in a list, if any. -/
def lastNlIdx (l : List Char) : Option Nat :=
  match l.reverse.findIdx? (fun c => c == '\n') with
  | some j => some (l.length - 1 - j)
  | none => none

/-- One attempt of `TITLE\s*\n(.+?)(\n\d+\.|\n[A-Z ] 3,  |$)` (`re.S`) at a
fixed position: the escaped title literal, then `\s*\n` — a greedy
whitespace run backtracked to end at its last newline — then the lazy
block. -/
def tryDescAt (title : List Char) (l : List Char) : Option (List Char) :=
  match dropLit title l with
  | none => none
  | some rest =>
    let run := rest.takeWhile isSpaceChar
    match lastNlIdx run with
    | none => none
    | some i => descLazy [] (rest.drop (i + 1))

/-- `re.sub(r"\n 1,2  ", " ", block)`: every one or two newlines become a
single space (a run of `n` newlines becomes ⌈n/2⌉ spaces). -/
def nl12ToSpace : List Char → List Char
  | [] => []
  | '\n' :: '\n' :: rest => ' ' :: nl12ToSpace rest
  | '\n' :: rest => ' ' :: nl12ToSpace rest
  | c :: rest => c :: nl12ToSpace rest

/-- The numbered-list strategy of `extract_projects`. -/
def numberedProjects (text : List Char) : List (List Char) :=
  (lineStartScan tryNumberedAt (text.length + 1) true text).map fun title =>
    let t := pyStrip title
    match searchSuffixes (tryDescAt t) text with
    | some block => t ++ [' ', '–', ' '] ++ nl12ToSpace (pyStrip block)
    | none => t

/-- One attempt of `(?m)^\s*[-•*]\s*(.+)` at a line start. -/
def tryBulletAt (l : List Char) : Option (List Char × List Char) :=
  let r0 := l.drop (l.takeWhile isSpaceChar).length
  match r0 with
  | c :: r1 =>
    if c = '-' || c = '•' || c = '*' then
      firstSome (descRange0 ((r1.takeWhile isSpaceChar).length)) fun n =>
        let r2 := r1.drop n
        let content := r2.takeWhile (fun d => !(d == '\n'))
        if content.isEmpty then none else some (content, r2.drop content.length)
    else none
  | [] => none

/-- The bare-bullet strategy: every bulleted line longer than 5 characters,
stripped. -/
def bulletProjects (text : List Char) : List (List Char) :=
  (lineStartScan tryBulletAt (text.length + 1) true text).filterMap fun b =>
    if 5 < b.length then some (pyStrip b) else none

/-- The final merge loop of `extract_projects`: strip spaces, dots, dashes
and underscores from the ends, keep entries longer than 5 characters not
already present. -/
def finalizeProjects (acc : List (List Char)) : List (List Char) → List (List Char)
  | [] => acc
  | p :: ps =>
    let p' := stripSet [' ', '.', '-', '_'] p
    if 5 < p'.length ∧ p' ∉ acc then finalizeProjects (acc ++ [p']) ps
    else finalizeProjects acc ps

/-- `extract_projects`: the three strategies concatenated, deduplicated,
capped at ten entries. -/
def extract_projects (text : String) : List String × ℚ :=
  let projects := secProjects text.data ++ numberedProjects text.data ++ bulletProjects text.data
  let final := finalizeProjects [] projects
  ((final.take 10).map (fun w => (⟨w⟩ : String)),
    if final.isEmpty then 0.0 else 0.9)

/-! ## `extract_experience`, the aggregator, and `parse_file` -/

/-- The stub experience extractor: always empty with confidence zero. -/
def extract_experience (_text : String) : List (List (String × String)) × ℚ :=
  ([], 0.0)

/-- Python's `round` on our exact rationals: nearest integer, ties to the
even neighbour.  (The source computes `int(round(v * 100))` on floats; on
the short decimal constants involved no tie is hit after the float
rounding, and the claims under study only concern the `[0, 99]` bounds,
which hold for either tie rule.) -/
def pyRound (q : ℚ) : ℤ :=
  let f := ⌊q⌋
  let r := q - f
  if r < 1 / 2 then f
  else if 1 / 2 < r then f + 1
  else if f % 2 = 0 then f else f + 1

/-- `section_confidence_map`: each confidence float to an integer
percentage. -/
def section_confidence_map (d : List (String × ℚ)) : List (String × ℤ) :=
  d.map fun kv => (kv.1, pyRound (kv.2 * 100))

/-- `list(dict.fromkeys(skills))`: drop later duplicates, keep order. -/
def dedupKeepFirst (seen : List String) : List String → List String
  | [] => []
  | s :: ss =>
    if s ∈ seen then dedupKeepFirst seen ss
    else s :: dedupKeepFirst (s :: seen) ss

/-- The record assembled by `parse_file` (minus the `file` key, which only
names the source path; text decoding is the excluded collaborator). -/
structure ExtractionRecord where
  name : String
  contacts : Contacts
  skills : List String
  cgpa : String
  projects : List String
  projects_text : String
  experience : List (List (String × String))
  confidence : List (String × ℤ)
  language : String
  raw_text : String
deriving DecidableEq, Repr

/-- The fallback vocabulary of `load_skills_dict`. -/
def default_skills : List String :=
  [("python"), ("java"), ("react"), ("django"), ("flask"), ("aws"), ("docker")]

/-- `parse_file` after the excluded `load_text` / `load_skills_dict` steps:
the single extraction entry point, taking the raw document text and the
vocabulary (the spec's `extract(document_text, skill_vocabulary)`). -/
def parse_file (raw : String) (skills_list : List String) : ExtractionRecord :=
  let text := clean_text raw
  let nc := extract_name text
  let name := remove_duplicate_words nc.1
  let cc := extract_contacts text
  let sk := extract_skills text skills_list
  let skills := dedupKeepFirst [] sk.1
  let cg := extract_cgpa text
  let pr := extract_projects text
  let projects := pr.1.map remove_duplicate_words
  let ex := extract_experience text
  let conf := section_confidence_map
    [(("name"), nc.2), (("contact"), cc.2), (("skills"), sk.2),
     (("education"), 0.5), (("cgpa"), cg.2), (("projects"), pr.2),
     (("experience"), ex.2)]
  { name := name
    contacts := cc.1
    skills := skills
    cgpa := cg.1
    projects := projects
    projects_text := ⟨joinSep [' '] (projects.map String.data)⟩
    experience := ex.1
    confidence := conf
    language := if is_kannada text then ("Kannada") else ("English")
    raw_text := text }

/-! ## Normal-form predicates for `clean_text` -/

/-- `clean_text`'s space/tab normal form: no tab, and no two adjacent
space-or-tab characters (so `re.sub(r"[ \t]+", " ")` is the identity). -/
def okWs : List Char → Bool
  | [] => true
  | [c] => !(c == '\t')
  | c :: c2 :: cs => !(c == '\t') && !(isHT c && isHT c2) && okWs (c2 :: cs)

/-- Three consecutive newlines occur somewhere (so `re.sub(r"\n 3,  ",
"\n\n")` would rewrite). -/
def hasNNN : List Char → Bool
  | [] => false
  | [_] => false
  | [_, _] => false
  | c1 :: c2 :: c3 :: rest =>
    (c1 == '\n' && c2 == '\n' && c3 == '\n') || hasNNN (c2 :: c3 :: rest)

/-! ## Generic lemmas about the search helpers -/

theorem firstSome_eq_some {l : List α} {f : α → Option β} {b : β}
    (h : firstSome l f = some b) : ∃ a ∈ l, f a = some b := by
  induction l with
  | nil => simp [firstSome] at h
  | cons a l ih =>
    cases hfa : f a with
    | some b' =>
      simp only [firstSome, hfa] at h
      exact ⟨a, by simp, by rw [hfa, h]⟩
    | none =>
      simp only [firstSome, hfa] at h
      obtain ⟨a', ha', hfa'⟩ := ih h
      exact ⟨a', by simp [ha'], hfa'⟩

theorem searchSuffixes_isSome {f : List Char → Option β} {s l : List Char}
    (hs : s <:+ l) (h : (f s).isSome) : (searchSuffixes f l).isSome := by
  induction l with
  | nil =>
    rw [List.suffix_nil] at hs
    subst hs
    simpa [searchSuffixes] using h
  | cons c cs ih =>
    rw [searchSuffixes]
    cases hfc : f (c :: cs) with
    | some b => simp
    | none =>
      rcases List.suffix_cons_iff.mp hs with h1 | h1
      · rw [h1] at h
        rw [hfc] at h
        simp at h
      · exact ih h1

theorem searchSuffixes_eq_some {f : List Char → Option β} {l : List Char} {b : β}
    (h : searchSuffixes f l = some b) : ∃ s, s <:+ l ∧ f s = some b := by
  induction l with
  | nil => exact ⟨[], List.nil_suffix, by simpa [searchSuffixes] using h⟩
  | cons c cs ih =>
    cases hfc : f (c :: cs) with
    | some b' =>
      simp only [searchSuffixes, hfc] at h
      exact ⟨c :: cs, List.suffix_refl _, by rw [hfc, h]⟩
    | none =>
      simp only [searchSuffixes, hfc] at h
      obtain ⟨s, hs, hfs⟩ := ih h
      exact ⟨s, hs.trans (List.suffix_cons c cs), hfs⟩

/-! ## C10: the labelled CGPA patterns do not cross lines -/

/-- C10: with `"CGPA"` on one line and `"8.50"` on the next, and no `/10`
or out-of-10 form present, `extract_cgpa` returns the empty string with
confidence 0: the labelled patterns' dot cannot cross the newline. -/
theorem c10_cgpa_same_line :
    extract_cgpa ("CGPA\n8.50") = (("" : String), 0.0) ∧
    hasSub (("/10").data) (("CGPA\n8.50").data) = false ∧
    hasSub (("out").data) (("CGPA\n8.50").data) = false :=
  ⟨rfl, by decide, by decide⟩

/-! ## C4: whole-word skill matching -/

/-- C4: with vocabulary `["react"]`, the text `"I used reactive
programming"` yields no skills (no whole-word occurrence), while `"I used
React daily"` yields exactly `["React"]`. -/
theorem c4_whole_word_skills :
    (extract_skills ("I used reactive programming") [("react")]).1 = [] ∧
    (extract_skills ("I used React daily") [("react")]).1 = [("React" : String)] :=
  ⟨by decide, by decide⟩

/-! ## C5: CGPA pattern priority -/

/-- C5 (counterexample): the claim "every text containing both
`"CGPA: 8.5"` and `"7.2/10"` returns `"8.5"`" fails: in
`"CGPA 7.0 CGPA: 8.5 and 7.2/10"` both substrings occur, but the leftmost
match of the first (CGPA-labelled) pattern captures `"7.0"`. -/
theorem c5_cgpa_priority_counterexample :
    hasSub (("CGPA: 8.5").data) (("CGPA 7.0 CGPA: 8.5 and 7.2/10").data) = true ∧
    hasSub (("7.2/10").data) (("CGPA 7.0 CGPA: 8.5 and 7.2/10").data) = true ∧
    extract_cgpa ("CGPA 7.0 CGPA: 8.5 and 7.2/10") = (("7.0"), 0.99) ∧
    ("7.0" : String) ≠ ("8.5") :=
  ⟨by decide, by decide, rfl, by decide⟩

/-- C5 (amended): in every text containing `"CGPA: 8.5"` (in particular
whenever both substrings of the claim occur), the CGPA-labelled pattern
matches, so the extractor returns confidence 0.99 and the `/10` pattern
never decides the result; the returned value is the one captured at the
first CGPA label followed by a numeral on its line, which is `"8.5"` for
the claim's two substrings in either order. -/
theorem c5_cgpa_priority_amended :
    (∀ u v : String, (extract_cgpa (u ++ ("CGPA: 8.5") ++ v)).2 = 0.99) ∧
    extract_cgpa ("CGPA: 8.5 and 7.2/10") = (("8.5"), 0.99) ∧
    extract_cgpa ("Scored 7.2/10, CGPA: 8.5") = (("8.5"), 0.99) := by
  refine ⟨fun u v => ?_, rfl, rfl⟩
  have hs : ∀ w : List Char,
      (tryLabelFloat (("cgpa").data) ((("CGPA: 8.5").data) ++ w)).isSome := fun w => rfl
  have hsub : (("CGPA: 8.5").data) ++ v.data <:+ (u ++ ("CGPA: 8.5") ++ v).data := by
    rw [String.data_append, String.data_append, List.append_assoc]
    exact List.suffix_append u.data _
  have hsome := searchSuffixes_isSome hsub (hs v.data)
  obtain ⟨m, hm⟩ := Option.isSome_iff_exists.mp hsome
  simp only [extract_cgpa]
  rw [hm]

/-! ## C7: contact extraction -/

/-- C7 (counterexample): the claim quantifies over every text containing
`"Call me at 9876543210 or email x@y.com"`, but a text with an earlier
phone number returns that one instead: the mapping does not contain
`"9876543210"`. -/
theorem c7_contacts_counterexample :
    hasSub (("Call me at 9876543210 or email x@y.com").data)
      (("9123456789 Call me at 9876543210 or email x@y.com").data) = true ∧
    (extract_contacts ("9123456789 Call me at 9876543210 or email x@y.com")).1.phone =
      some ("9123456789") ∧
    (extract_contacts ("9123456789 Call me at 9876543210 or email x@y.com")).1.phone ≠
      some ("9876543210") :=
  ⟨by decide, by decide, by decide⟩

/-- C7 (amended): on the text `"Call me at 9876543210 or email x@y.com"`
itself, the extractor returns exactly the phone and email keys with those
values, at combined confidence 0.7 (which lies in [0.7, 0.99]). -/
theorem c7_contacts_amended :
    extract_contacts ("Call me at 9876543210 or email x@y.com") =
      (⟨some ("9876543210"), some ("x@y.com"), none, none⟩, 0.7) ∧
    (0.7 : ℚ) ≤ (extract_contacts ("Call me at 9876543210 or email x@y.com")).2 ∧
    (extract_contacts ("Call me at 9876543210 or email x@y.com")).2 ≤ 0.99 := by
  have h : extract_contacts ("Call me at 9876543210 or email x@y.com") =
      (⟨some ("9876543210"), some ("x@y.com"), none, none⟩,
        min ((0.35 : ℚ) + 0.35 + 0 + 0) 0.99) := rfl
  rw [h]
  norm_num

/-! ## C3: totality and the empty-input record -/

theorem data_ne_nil_of_ne_empty {s : String} (h : s ≠ ("")) : s.data ≠ [] := by
  intro hd
  apply h
  cases s with
  | mk data => simp_all

theorem skillScan_nil {pat : List Char} (hp : pat ≠ []) :
    skillScan pat true [] = false := by
  cases pat with
  | nil => simp at hp
  | cons p ps => simp [skillScan, dropLit]

theorem extract_skills_empty_text (sl : List String) (h : ∀ s ∈ sl, s ≠ ("")) :
    extract_skills ("") sl = ([], 0.1) := by
  have hfound : sl.foldl
      (fun acc skill =>
        if skillScan (pyLower skill.data) true (pyLower (("") : String).data) = true then
          (let t := pyTitle skill.data
           if t ∈ acc then acc else acc ++ [t])
        else acc) [] = [] := by
    induction sl with
    | nil => rfl
    | cons s ss ih =>
      have hne : pyLower s.data ≠ [] := by
        intro hl
        exact data_ne_nil_of_ne_empty (h s (by simp)) (by simpa [pyLower] using hl)
      have hscan : skillScan (pyLower s.data) true (pyLower (("") : String).data) = false := by
        have : pyLower (("") : String).data = [] := rfl
        rw [this]
        exact skillScan_nil hne
      simp only [List.foldl, hscan]
      simp only [Bool.false_eq_true, if_false]
      exact ih (fun t ht => h t (by simp [ht]))
  simp [extract_skills, hfound, pySorted]

/-- C3: the entry point is total by construction (every extractor is a
total Lean function), and on the empty document the record has name
`"Unknown"`, no contacts, no skills, no projects, empty CGPA and language
`"English"`; the skills stay empty for every vocabulary of non-empty
terms. -/
theorem c3_empty_input_total :
    (parse_file ("") default_skills).name = ("Unknown") ∧
    (parse_file ("") default_skills).contacts = ⟨none, none, none, none⟩ ∧
    (parse_file ("") default_skills).skills = [] ∧
    (parse_file ("") default_skills).cgpa = ("") ∧
    (parse_file ("") default_skills).projects = [] ∧
    (parse_file ("") default_skills).language = ("English") ∧
    (∀ skills_list : List String, (∀ s ∈ skills_list, s ≠ ("")) →
      extract_skills ("") skills_list = ([], 0.1)) :=
  ⟨by decide, by decide, by decide, by decide, by decide, by decide,
   extract_skills_empty_text⟩

/-- C3 witness: the vocabulary hypothesis instantiated at the default
vocabulary. -/
theorem c3_empty_input_total_witness :
    extract_skills ("") default_skills = ([], 0.1) :=
  c3_empty_input_total.2.2.2.2.2.2 default_skills (by decide)

/-! ## C1: project list invariants -/

theorem dropWhile_dropWhile_self (p : α → Bool) (l : List α) :
    (l.dropWhile p).dropWhile p = l.dropWhile p := by
  induction l with
  | nil => simp
  | cons c cs ih =>
    by_cases h : p c
    · simp [List.dropWhile_cons, h, ih]
    · simp [List.dropWhile_cons, h]

theorem dropTrailing_shape (p : Char → Bool) (c : Char) (cs : List Char) :
    dropTrailing p (c :: cs) = [] ∨ ∃ r, dropTrailing p (c :: cs) = c :: r := by
  rw [dropTrailing]
  cases h : dropTrailing p cs with
  | nil =>
    by_cases hc : p c
    · exact Or.inl (by simp [hc])
    · exact Or.inr ⟨[], by simp [hc]⟩
  | cons r rs => exact Or.inr ⟨r :: rs, by simp⟩

theorem dropTrailing_idem (p : Char → Bool) (l : List Char) :
    dropTrailing p (dropTrailing p l) = dropTrailing p l := by
  induction l with
  | nil => simp [dropTrailing]
  | cons c cs ih =>
    rw [dropTrailing]
    cases h : dropTrailing p cs with
    | nil =>
      by_cases hc : p c
      · simp [hc, dropTrailing]
      · simp [hc, dropTrailing]
    | cons r rs =>
      rw [h] at ih
      rw [dropTrailing, ih]

theorem dropWhile_head_not {p : α → Bool} {l : List α} {c : α} {cs : List α}
    (h : l.dropWhile p = c :: cs) : p c = false := by
  induction l with
  | nil => simp at h
  | cons a l ih =>
    by_cases ha : p a
    · rw [List.dropWhile_cons] at h
      simp [ha] at h
      exact ih h
    · rw [List.dropWhile_cons] at h
      simp [ha] at h
      rw [← h.1]
      simp [ha]

theorem stripSet_idem (set : List Char) (l : List Char) :
    stripSet set (stripSet set l) = stripSet set l := by
  unfold stripSet
  set p : Char → Bool := fun c => decide (c ∈ set) with hp
  cases hx : l.dropWhile p with
  | nil => simp [dropTrailing]
  | cons c cs =>
    have hc : p c = false := dropWhile_head_not hx
    rcases dropTrailing_shape p c cs with h1 | ⟨r, h1⟩
    · rw [h1]
      simp [dropTrailing]
    · rw [h1, List.dropWhile_cons]
      simp only [hc, Bool.false_eq_true, if_false]
      rw [← h1, dropTrailing_idem]

theorem finalizeProjects_mem {ps acc : List (List Char)} {w : List Char}
    (hacc : ∀ q ∈ acc, stripSet [' ', '.', '-', '_'] q = q)
    (hw : w ∈ finalizeProjects acc ps) : stripSet [' ', '.', '-', '_'] w = w := by
  induction ps generalizing acc with
  | nil => exact hacc w hw
  | cons p ps ih =>
    rw [finalizeProjects] at hw
    by_cases hcond : 5 < (stripSet [' ', '.', '-', '_'] p).length ∧
        stripSet [' ', '.', '-', '_'] p ∉ acc
    · rw [if_pos hcond] at hw
      refine ih ?_ hw
      intro q hq
      rcases List.mem_append.mp hq with h1 | h1
      · exact hacc q h1
      · rw [List.mem_singleton.mp h1]
        exact stripSet_idem _ _
    · rw [if_neg hcond] at hw
      exact ih hacc hw

theorem finalizeProjects_nodup {ps acc : List (List Char)}
    (h : acc.Nodup) : (finalizeProjects acc ps).Nodup := by
  induction ps generalizing acc with
  | nil => exact h
  | cons p ps ih =>
    rw [finalizeProjects]
    by_cases hcond : 5 < (stripSet [' ', '.', '-', '_'] p).length ∧
        stripSet [' ', '.', '-', '_'] p ∉ acc
    · rw [if_pos hcond]
      refine ih ?_
      rw [List.nodup_append]
      exact ⟨h, List.nodup_singleton _, by simpa using fun hmem => hcond.2 hmem⟩
    · rw [if_neg hcond]
      exact ih h

/-- C1 (amended): for every input text the list returned by
`extract_projects` has length at most 10 and pairwise-distinct entries,
and every entry is a fixpoint of the code's end-trimming (strip of spaces,
dots, dashes, underscores), so entries stay pairwise distinct after that
trimming; the `projects` field of the assembled record keeps length at
most 10, but (see the counterexample) not the no-duplicates part. -/
theorem c1_project_invariants (text : String) :
    (extract_projects text).1.length ≤ 10 ∧
    (extract_projects text).1.Nodup ∧
    (∀ p ∈ (extract_projects text).1, stripSet [' ', '.', '-', '_'] p.data = p.data) ∧
    (∀ skills_list : List String, (parse_file text skills_list).projects.length ≤ 10) := by
  have hinj : Function.Injective String.mk := fun a b h => by injection h
  have hfin : ∀ t : String, (extract_projects t).1 =
      ((finalizeProjects [] (secProjects t.data ++ numberedProjects t.data ++
        bulletProjects t.data)).take 10).map (fun w => (⟨w⟩ : String)) := fun _ => rfl
  refine ⟨?_, ?_, ?_, ?_⟩
  · rw [hfin]
    simp [List.length_take]
  · rw [hfin]
    refine List.Nodup.map hinj ?_
    exact (List.take_sublist _ _).nodup (finalizeProjects_nodup (List.nodup_nil))
  · intro p hp
    rw [hfin] at hp
    obtain ⟨w, hw, hwp⟩ := List.mem_map.mp hp
    have hmem : w ∈ finalizeProjects []
        (secProjects text.data ++ numberedProjects text.data ++ bulletProjects text.data) :=
      (List.take_sublist _ _).mem hw
    have := finalizeProjects_mem (by simp) hmem
    rw [← hwp]
    exact this
  · intro skills_list
    have hproj : (parse_file text skills_list).projects =
        (extract_projects (clean_text text)).1.map remove_duplicate_words := rfl
    rw [hproj, List.length_map]
    rw [hfin]
    simp [List.length_take]

/-- C1 witness: the invariants at a concrete text whose single bullet
becomes the single project entry. -/
theorem c1_project_invariants_witness :
    (extract_projects ("- Alphabet Soup")).1.length ≤ 10 ∧
    stripSet [' ', '.', '-', '_'] (("Alphabet Soup").data) = ("Alphabet Soup").data :=
  ⟨(c1_project_invariants ("- Alphabet Soup")).1,
   (c1_project_invariants ("- Alphabet Soup")).2.2.1 ("Alphabet Soup") (by decide)⟩

/-- C1 (counterexample): after the per-entry duplicate-word removal of the
assembler, two distinct deduplicated entries can become string-equal: the
bullets `"Alpha Beta"` and `"Alpha Beta Alpha"` both map to
`"Alpha Beta"`, so the record's projects field holds a duplicate. -/
theorem c1_record_dup_counterexample :
    (parse_file ("- Alpha Beta\n- Alpha Beta Alpha") default_skills).projects =
      [("Alpha Beta"), ("Alpha Beta")] ∧
    ¬ (parse_file ("- Alpha Beta\n- Alpha Beta Alpha") default_skills).projects.Nodup :=
  ⟨by decide, by decide⟩

/-! ## C2: confidence bounds -/

theorem candScan_conf {seen : List (List Char)} {cands : List (List Char)}
    {r : String × ℚ} (h : candScan seen cands = some r) :
    r.2 = 0.99 ∨ r.2 = 0.97 := by
  induction cands with
  | nil => simp [candScan] at h
  | cons name rest ih =>
    simp only [candScan] at h
    split_ifs at h with h1 h2 h3 h4
    · exact ih h
    · exact ih h
    · exact Or.inl (by cases h; rfl)
    · exact Or.inr (by cases h; rfl)
    · exact ih h

theorem lineScan_conf {seen : List (List Char)} {lines : List (List Char)}
    {r : String × ℚ} (h : lineScan seen lines = some r) :
    r.2 = 0.99 ∨ r.2 = 0.97 := by
  induction lines with
  | nil => simp [lineScan] at h
  | cons line rest ih =>
    simp only [lineScan] at h
    split_ifs at h with h1 h2
    · exact ih h
    · exact ih h
    · cases hc : candScan seen
          ((splitCands (processLine line)).map pyStrip |>.filter (fun c => !c.isEmpty)) with
      | some r' =>
        rw [hc] at h
        simp only [Option.some.injEq] at h
        exact h ▸ candScan_conf hc
      | none =>
        rw [hc] at h
        exact ih h

theorem extract_name_conf_bounds (t : String) :
    0 ≤ (extract_name t).2 ∧ (extract_name t).2 ≤ 0.99 := by
  rw [extract_name]
  cases hn : nameFromLines t with
  | some r =>
    rcases lineScan_conf hn with h | h <;> rw [h] <;> norm_num
  | none =>
    cases he : searchSuffixes emailNameAt t.data with
    | some g => norm_num
    | none => norm_num

theorem extract_contacts_conf_bounds (t : String) :
    0 ≤ (extract_contacts t).2 ∧ (extract_contacts t).2 ≤ 0.99 := by
  simp only [extract_contacts]
  constructor
  · apply le_min
    · split_ifs <;> norm_num
    · norm_num
  · exact min_le_right _ _

theorem extract_skills_conf_bounds (t : String) (sl : List String) :
    0 ≤ (extract_skills t sl).2 ∧ (extract_skills t sl).2 ≤ 0.99 := by
  simp only [extract_skills]
  by_cases hf : (sl.foldl
      (fun acc skill =>
        if skillScan (pyLower skill.data) true (pyLower t.data) = true then
          (let t := pyTitle skill.data
           if t ∈ acc then acc else acc ++ [t])
        else acc) []).isEmpty
  · simp only [hf, if_true]
    norm_num
  · simp only [hf, Bool.false_eq_true, if_false]
    constructor
    · apply le_min
      · positivity
      · norm_num
    · calc min (0.3 + 0.7 * _ / _) 0.98 ≤ (0.98 : ℚ) := min_le_right _ _
        _ ≤ 0.99 := by norm_num

theorem extract_cgpa_conf_cases (t : String) :
    (extract_cgpa t).2 = 0.99 ∨ (extract_cgpa t).2 = 0.0 := by
  rw [extract_cgpa]
  split
  · exact Or.inl rfl
  · split
    · exact Or.inl rfl
    · split
      · exact Or.inl rfl
      · split
        · exact Or.inl rfl
        · exact Or.inr rfl

theorem extract_projects_conf_cases (t : String) :
    (extract_projects t).2 = 0.9 ∨ (extract_projects t).2 = 0.0 := by
  simp only [extract_projects]
  split
  · exact Or.inr rfl
  · exact Or.inl rfl

theorem pyRound_bounds {q : ℚ} (h0 : 0 ≤ q) (h99 : q ≤ 99) :
    0 ≤ pyRound q ∧ pyRound q ≤ 99 := by
  have hfl : (⌊q⌋ : ℚ) ≤ q := Int.floor_le q
  have hf0 : (0 : ℤ) ≤ ⌊q⌋ := Int.floor_nonneg.mpr h0
  have hf99 : ⌊q⌋ ≤ 99 := by
    have := Int.floor_le_floor h99
    simpa using this
  rw [pyRound]
  split_ifs with h1 h2 h3
  · exact ⟨hf0, hf99⟩
  · refine ⟨by omega, ?_⟩
    have hlt : (⌊q⌋ : ℚ) + 1 / 2 < q := by linarith
    have : (⌊q⌋ : ℚ) < 99 := by linarith
    have : ⌊q⌋ < 99 := by exact_mod_cast this
    omega
  · refine ⟨hf0, ?_⟩
    have heq : q - ⌊q⌋ = 1 / 2 := le_antisymm (not_lt.mp h2) (not_lt.mp h1)
    have : (⌊q⌋ : ℚ) + 1 / 2 ≤ 99 := by linarith
    have : (⌊q⌋ : ℚ) < 99 := by linarith
    have : ⌊q⌋ < 99 := by exact_mod_cast this
    omega
  · refine ⟨by omega, ?_⟩
    have heq : q - ⌊q⌋ = 1 / 2 := le_antisymm (not_lt.mp h2) (not_lt.mp h1)
    have : (⌊q⌋ : ℚ) + 1 / 2 ≤ 99 := by linarith
    have : (⌊q⌋ : ℚ) < 99 := by linarith
    have : ⌊q⌋ < 99 := by exact_mod_cast this
    omega

theorem section_confidence_map_bounds (d : List (String × ℚ))
    (h : d.Forall (fun kv => 0 ≤ kv.2 ∧ kv.2 ≤ 0.99)) :
    (section_confidence_map d).Forall (fun kv => 0 ≤ kv.2 ∧ kv.2 ≤ 99) := by
  induction d with
  | nil => simp [section_confidence_map]
  | cons kv d ih =>
    rw [List.forall_cons] at h
    rw [section_confidence_map, List.map_cons, List.forall_cons]
    refine ⟨?_, ih h.2⟩
    have h0 : 0 ≤ kv.2 * 100 := by
      have := h.1.1
      positivity
    have h99 : kv.2 * 100 ≤ 99 := by
      have := h.1.2
      nlinarith
    exact pyRound_bounds h0 h99

/-- C2: every confidence float returned by the name, contact, skills,
CGPA, project and experience extractors lies in [0, 0.99], and the
aggregator maps any confidence mapping with values in [0, 0.99] to integer
percentages in [0, 99]. -/
theorem c2_confidence_bounds :
    (∀ t : String, 0 ≤ (extract_name t).2 ∧ (extract_name t).2 ≤ 0.99) ∧
    (∀ t : String, 0 ≤ (extract_contacts t).2 ∧ (extract_contacts t).2 ≤ 0.99) ∧
    (∀ (t : String) (sl : List String),
      0 ≤ (extract_skills t sl).2 ∧ (extract_skills t sl).2 ≤ 0.99) ∧
    (∀ t : String, 0 ≤ (extract_cgpa t).2 ∧ (extract_cgpa t).2 ≤ 0.99) ∧
    (∀ t : String, 0 ≤ (extract_projects t).2 ∧ (extract_projects t).2 ≤ 0.99) ∧
    (∀ t : String, 0 ≤ (extract_experience t).2 ∧ (extract_experience t).2 ≤ 0.99) ∧
    (∀ d : List (String × ℚ), d.Forall (fun kv => 0 ≤ kv.2 ∧ kv.2 ≤ 0.99) →
      (section_confidence_map d).Forall (fun kv => 0 ≤ kv.2 ∧ kv.2 ≤ 99)) := by
  refine ⟨extract_name_conf_bounds, extract_contacts_conf_bounds,
    extract_skills_conf_bounds, ?_, ?_, ?_, section_confidence_map_bounds⟩
  · intro t
    rcases extract_cgpa_conf_cases t with h | h <;> rw [h] <;> norm_num
  · intro t
    rcases extract_projects_conf_cases t with h | h <;> rw [h] <;> norm_num
  · intro t
    have h : (extract_experience t).2 = 0.0 := rfl
    rw [h]
    norm_num

/-- C2 witness: the aggregator hypothesis discharged at the constant
education confidence. -/
theorem c2_confidence_bounds_witness :
    (section_confidence_map [(("education"), 1 / 2)]).Forall
      (fun kv => 0 ≤ kv.2 ∧ kv.2 ≤ 99) :=
  c2_confidence_bounds.2.2.2.2.2.2 [(("education"), 1 / 2)]
    (by simp [List.Forall]; norm_num)

/-! ## C6: the name fallback chain -/

theorem firstSome_eq_none {l : List α} {f : α → Option β}
    (h : ∀ a ∈ l, f a = none) : firstSome l f = none := by
  induction l with
  | nil => rfl
  | cons a l ih =>
    rw [firstSome, h a (by simp)]
    exact ih (fun a' ha' => h a' (by simp [ha']))

/-- If a text has no `@` at all, the email-name pattern cannot match
anywhere: every attempt ends at the literal `@`. -/
theorem emailNameAt_none {s : List Char} (h : ∀ c ∈ s, c ≠ '@') :
    emailNameAt s = none := by
  rw [emailNameAt]
  apply firstSome_eq_none
  intro k _
  apply firstSome_eq_none
  intro rest1 hrest1
  have hrest1sub : rest1 ⊆ s := by
    have hdropsub : s.drop k ⊆ s := List.drop_subset k s
    rcases hdrop : s.drop k with _ | ⟨c0, cr⟩
    · rw [hdrop] at hrest1
      simp at hrest1
      rw [hrest1]
      rw [← hdrop]
      exact hdropsub
    · rw [hdrop] at hrest1
      dsimp only at hrest1
      split_ifs at hrest1 with hsep
      · rcases List.mem_cons.mp hrest1 with h1 | h1
        · rw [h1]
          intro x hx
          exact hdropsub (hdrop ▸ List.mem_cons_of_mem c0 hx)
        · simp at h1
          rw [h1, ← hdrop]
          exact hdropsub
      · simp at hrest1
        rw [hrest1, ← hdrop]
        exact hdropsub
  apply firstSome_eq_none
  intro g2r hg2r
  have hg2sub : g2r.2 ⊆ rest1 := by
    rcases List.mem_append.mp hg2r with h1 | h1
    · obtain ⟨j, _, hj⟩ := List.mem_map.mp h1
      rw [← hj]
      exact List.drop_subset j rest1
    · simp at h1
      rw [h1]
      exact List.Subset.refl _
  rcases hsh : g2r.2 with _ | ⟨c, cs⟩
  · rfl
  · have hc : c ∈ s := hrest1sub (hg2sub (hsh ▸ List.mem_cons_self c cs))
    simp [h c hc]

/-- C6 (counterexample): the claim quantifies over every text containing
`"jane.doe@x.com"`, but a text whose first email-like match is an earlier
address derives the name from that one: `"bob@y.com\njane.doe@x.com"` has
no qualifying name line, contains the address, and yields `"Bob"`. -/
theorem c6_name_fallback_counterexample :
    nameFromLines ("bob@y.com\njane.doe@x.com") = none ∧
    hasSub (("jane.doe@x.com").data) (("bob@y.com\njane.doe@x.com").data) = true ∧
    extract_name ("bob@y.com\njane.doe@x.com") = (("Bob"), 0.85) ∧
    (("Bob") : String) ≠ ("Jane Doe") :=
  ⟨by decide, by decide, rfl, by decide⟩

/-- C6 (amended): the fallback chain, restricted to where it is
deterministic: a text beginning with `"jane.doe@x.com"` whose lines yield
no name candidate gives `("Jane Doe", 0.85)` (the leftmost email-name
match is that address); a text with no qualifying line and no `@` at all
gives `("Unknown", 0.1)`. -/
theorem c6_name_fallback_amended :
    (∀ v : String, nameFromLines (("jane.doe@x.com") ++ v) = none →
      extract_name (("jane.doe@x.com") ++ v) = (("Jane Doe"), 0.85)) ∧
    (∀ t : String, nameFromLines t = none → (∀ c ∈ t.data, c ≠ '@') →
      extract_name t = (("Unknown"), 0.1)) := by
  constructor
  · intro v h
    have hs : searchSuffixes emailNameAt (("jane.doe@x.com") ++ v).data =
        some ((("jane").data), some (("doe").data)) := rfl
    rw [extract_name, h, hs]
    rfl
  · intro t h hat
    rw [extract_name, h]
    cases he : searchSuffixes emailNameAt t.data with
    | none => rfl
    | some g =>
      exfalso
      obtain ⟨s, hsuf, hfs⟩ := searchSuffixes_eq_some he
      have : emailNameAt s = none :=
        emailNameAt_none (fun c hc => hat c (hsuf.subset hc))
      rw [this] at hfs
      exact Option.noConfusion hfs

/-- C6 witness: both branches at concrete inputs. -/
theorem c6_name_fallback_witness :
    extract_name ("jane.doe@x.com") = (("Jane Doe"), 0.85) ∧
    extract_name ("12345 67890") = (("Unknown"), 0.1) := by
  constructor
  · have := c6_name_fallback_amended.1 ("") (by decide)
    simpa using this
  · exact c6_name_fallback_amended.2 ("12345 67890") (by decide) (by decide)

/-! ## C9: token deduplication -/

theorem pySplitAux_mem {cur w : List Char} {l : List Char}
    (hcur : ∀ c ∈ cur, isSpaceChar c = false) (hw : w ∈ pySplitAux cur l) :
    w ≠ [] ∧ ∀ c ∈ w, isSpaceChar c = false := by
  induction l generalizing cur with
  | nil =>
    rw [pySplitAux] at hw
    split_ifs at hw with he
    · simp at hw
    · rw [List.mem_singleton.mp hw]
      refine ⟨?_, hcur⟩
      intro hnil
      rw [hnil] at he
      simp at he
  | cons c cs ih =>
    rw [pySplitAux] at hw
    split_ifs at hw with hsp hemp
    · exact ih (by simp) hw
    · rcases List.mem_cons.mp hw with h1 | h1
      · refine ⟨?_, h1 ▸ hcur⟩
        intro hnil
        rw [← h1, hnil] at hemp
        simp at hemp
      · exact ih (by simp) h1
    · refine ih ?_ hw
      intro x hx
      rcases List.mem_append.mp hx with h1 | h1
      · exact hcur x h1
      · rw [List.mem_singleton.mp h1]
        simpa using hsp

theorem pySplitAux_append_word {w : List Char} (cur l : List Char)
    (hw : ∀ c ∈ w, isSpaceChar c = false) :
    pySplitAux cur (w ++ l) = pySplitAux (cur ++ w) l := by
  induction w generalizing cur with
  | nil => simp
  | cons c w' ih =>
    rw [List.cons_append, pySplitAux]
    rw [if_neg (by simp [hw c (by simp)])]
    rw [ih (cur ++ [c]) (fun x hx => hw x (by simp [hx]))]
    simp

theorem pySplit_join (ws : List (List Char))
    (h : ∀ w ∈ ws, w ≠ [] ∧ ∀ c ∈ w, isSpaceChar c = false) :
    pySplit (joinSep [' '] ws) = ws := by
  induction ws with
  | nil => rfl
  | cons w ws ih =>
    cases ws with
    | nil =>
      show pySplitAux [] (joinSep [' '] [w]) = [w]
      rw [show joinSep [' '] [w] = w from rfl]
      have : pySplitAux [] (w ++ []) = pySplitAux ([] ++ w) [] :=
        pySplitAux_append_word [] [] (h w (by simp)).2
      simp only [List.append_nil, List.nil_append] at this
      rw [this, pySplitAux]
      rw [if_neg (by simp [(h w (by simp)).1])]
    | cons w2 ws2 =>
      show pySplitAux [] (joinSep [' '] (w :: w2 :: ws2)) = _
      rw [show joinSep [' '] (w :: w2 :: ws2) =
        w ++ [' '] ++ joinSep [' '] (w2 :: ws2) from rfl]
      have h1 : pySplitAux [] (w ++ ([' '] ++ joinSep [' '] (w2 :: ws2))) =
          pySplitAux w ([' '] ++ joinSep [' '] (w2 :: ws2)) := by
        have := @pySplitAux_append_word w [] ([' '] ++ joinSep [' '] (w2 :: ws2))
          (h w (by simp)).2
        simpa using this
      rw [← List.append_assoc] at h1
      rw [h1]
      show pySplitAux w (' ' :: joinSep [' '] (w2 :: ws2)) = _
      rw [pySplitAux]
      rw [if_pos (by decide)]
      rw [if_neg (by simp [(h w (by simp)).1])]
      exact congrArg (w :: ·) (ih (fun x hx => h x (by simp [hx])))

theorem dedupWordsAux_not_seen {seen : List (List Char)} {ws : List (List Char)} {w : List Char}
    (hw : w ∈ dedupWordsAux seen ws) : pyLower w ∉ seen := by
  induction ws generalizing seen with
  | nil => simp [dedupWordsAux] at hw
  | cons w0 ws ih =>
    rw [dedupWordsAux] at hw
    split_ifs at hw with hmem
    · exact ih hw
    · rcases List.mem_cons.mp hw with h1 | h1
      · rw [h1]
        exact hmem
      · have := ih h1
        intro hc
        exact this (by simp [hc])

theorem dedupWordsAux_pairwise (seen : List (List Char)) (ws : List (List Char)) :
    (dedupWordsAux seen ws).Pairwise (fun a b => pyLower a ≠ pyLower b) := by
  induction ws generalizing seen with
  | nil => simp [dedupWordsAux]
  | cons w0 ws ih =>
    rw [dedupWordsAux]
    split_ifs with hmem
    · exact ih seen
    · rw [List.pairwise_cons]
      refine ⟨?_, ih (pyLower w0 :: seen)⟩
      intro b hb heq
      exact dedupWordsAux_not_seen hb (by simp [heq])

theorem dedupWordsAux_sublist (seen : List (List Char)) (ws : List (List Char)) :
    (dedupWordsAux seen ws).Sublist ws := by
  induction ws generalizing seen with
  | nil => simp [dedupWordsAux]
  | cons w0 ws ih =>
    rw [dedupWordsAux]
    split_ifs with hmem
    · exact (ih seen).cons w0
    · exact (ih (pyLower w0 :: seen)).cons₂ w0

theorem dedupWordsAux_covers {seen : List (List Char)} {ws : List (List Char)} {w : List Char}
    (hw : w ∈ ws) (hns : pyLower w ∉ seen) :
    ∃ v ∈ dedupWordsAux seen ws, pyLower v = pyLower w := by
  induction ws generalizing seen with
  | nil => simp at hw
  | cons w0 ws ih =>
    rw [dedupWordsAux]
    split_ifs with hmem
    · rcases List.mem_cons.mp hw with h1 | h1
      · rw [h1] at hns
        exact absurd hmem hns
      · exact ih h1 hns
    · rcases List.mem_cons.mp hw with h1 | h1
      · exact ⟨w0, by simp, by rw [h1]⟩
      · by_cases heq : pyLower w = pyLower w0
        · exact ⟨w0, by simp, heq.symm⟩
        · obtain ⟨v, hv, hveq⟩ := @ih (pyLower w0 :: seen) h1 (by simp [hns, heq])
          exact ⟨v, by simp [hv], hveq⟩

theorem dedupWordsAux_first_occurrence {seen : List (List Char)} {ws : List (List Char)} {v : List Char}
    (hv : v ∈ dedupWordsAux seen ws) :
    ws.find? (fun w => pyLower w == pyLower v) = some v := by
  induction ws generalizing seen with
  | nil => simp [dedupWordsAux] at hv
  | cons w0 ws ih =>
    rw [dedupWordsAux] at hv
    split_ifs at hv with hmem
    · have hne : pyLower w0 ≠ pyLower v := by
        intro heq
        exact dedupWordsAux_not_seen hv (heq ▸ hmem)
      rw [List.find?_cons_of_neg _ (by simpa using hne)]
      exact ih hv
    · rcases List.mem_cons.mp hv with h1 | h1
      · rw [h1]
        rw [List.find?_cons_of_pos _ (by simp)]
      · have hne : pyLower w0 ≠ pyLower v := by
          intro heq
          exact dedupWordsAux_not_seen h1 (by simp [heq])
        rw [List.find?_cons_of_neg _ (by simpa using hne)]
        exact ih h1

/-- C9: the deduplicated output's whitespace tokens are exactly the kept
words: pairwise distinct case-insensitively, a subsequence of the input
tokens covering every input token's class, each being the first occurrence
of its class with its original casing; and the concrete example. -/
theorem c9_dedup_correct (t : String) :
    pySplit (remove_duplicate_words t).data = dedupWordsAux [] (pySplit t.data) ∧
    (pySplit (remove_duplicate_words t).data).Pairwise
      (fun a b => pyLower a ≠ pyLower b) ∧
    (pySplit (remove_duplicate_words t).data).Sublist (pySplit t.data) ∧
    (∀ w ∈ pySplit t.data,
      ∃ v ∈ pySplit (remove_duplicate_words t).data, pyLower v = pyLower w) ∧
    (∀ v ∈ pySplit (remove_duplicate_words t).data,
      (pySplit t.data).find? (fun w => pyLower w == pyLower v) = some v) ∧
    remove_duplicate_words ("John John Smith Smith") = ("John Smith") := by
  have hws : ∀ w ∈ pySplit t.data, w ≠ [] ∧ ∀ c ∈ w, isSpaceChar c = false :=
    fun w hw => pySplitAux_mem (by simp) hw
  have hsplit : pySplit (remove_duplicate_words t).data =
      dedupWordsAux [] (pySplit t.data) := by
    show pySplit (joinSep [' '] (dedupWordsAux [] (pySplit t.data))) = _
    exact pySplit_join _
      (fun w hw => hws w ((dedupWordsAux_sublist [] _).subset hw))
  refine ⟨hsplit, ?_, ?_, ?_, ?_, by decide⟩
  · rw [hsplit]
    exact dedupWordsAux_pairwise [] _
  · rw [hsplit]
    exact dedupWordsAux_sublist [] _
  · intro w hw
    rw [hsplit]
    exact dedupWordsAux_covers hw (by simp)
  · intro v hv
    rw [hsplit] at hv
    exact dedupWordsAux_first_occurrence hv

/-- C9 witness: the first-occurrence component at the example text and the
token `"Smith"`. -/
theorem c9_dedup_correct_witness :
    (pySplit (("John John Smith Smith").data)).find?
      (fun w => pyLower w == pyLower (("Smith").data)) = some (("Smith").data) :=
  (c9_dedup_correct ("John John Smith Smith")).2.2.2.2.1 (("Smith").data) (by decide)

/-! ## C8: idempotence of `clean_text` -/

theorem map_eq_self_of {f : Char → Char} {l : List Char}
    (h : ∀ c ∈ l, f c = c) : l.map f = l := by
  induction l with
  | nil => rfl
  | cons c cs ih =>
    rw [List.map_cons, h c (by simp), ih (fun x hx => h x (by simp [hx]))]

theorem mem_wsCollapse {x : Char} {l : List Char} (h : x ∈ wsCollapse l) :
    x ∈ l ∨ x = ' ' := by
  induction l with
  | nil => simp [wsCollapse] at h
  | cons c cs ih =>
    cases cs with
    | nil =>
      rw [wsCollapse] at h
      split_ifs at h
      · exact Or.inr (List.mem_singleton.mp h)
      · exact Or.inl h
    | cons c2 cs' =>
      rw [wsCollapse] at h
      split_ifs at h with h1 h2
      · rcases ih h with h3 | h3
        · exact Or.inl (List.mem_cons_of_mem c h3)
        · exact Or.inr h3
      · rcases List.mem_cons.mp h with h3 | h3
        · exact Or.inr h3
        · rcases ih h3 with h4 | h4
          · exact Or.inl (List.mem_cons_of_mem c h4)
          · exact Or.inr h4
      · rcases List.mem_cons.mp h with h3 | h3
        · exact Or.inl (by simp [h3])
        · rcases ih h3 with h4 | h4
          · exact Or.inl (List.mem_cons_of_mem c h4)
          · exact Or.inr h4

theorem mem_nlFlush {x : Char} {st : Nat} (h : x ∈ nlFlush st) : x = '\n' := by
  rcases st with _ | _ | _ | st
  · simp [nlFlush] at h
  · simpa [nlFlush] using h
  · rcases (by simpa [nlFlush] using h : x = '\n' ∨ x = '\n') with h1 | h1 <;> exact h1
  · rcases (by simpa [nlFlush] using h : x = '\n' ∨ x = '\n') with h1 | h1 <;> exact h1

theorem mem_nlCollapseAux {x : Char} {l : List Char} {st : Nat}
    (h : x ∈ nlCollapseAux st l) : x ∈ l ∨ x = '\n' := by
  induction l generalizing st with
  | nil => exact Or.inr (mem_nlFlush h)
  | cons c cs ih =>
    rw [nlCollapseAux] at h
    split_ifs at h with h1
    · rcases ih h with h2 | h2
      · exact Or.inl (List.mem_cons_of_mem c h2)
      · exact Or.inr h2
    · rcases List.mem_append.mp h with h2 | h2
      · exact Or.inr (mem_nlFlush h2)
      · rcases List.mem_cons.mp h2 with h3 | h3
        · exact Or.inl (by simp [h3])
        · rcases ih h3 with h4 | h4
          · exact Or.inl (List.mem_cons_of_mem c h4)
          · exact Or.inr h4

theorem mem_dropTrailing {p : Char → Bool} {x : Char} {l : List Char}
    (h : x ∈ dropTrailing p l) : x ∈ l := by
  induction l with
  | nil => simp [dropTrailing] at h
  | cons c cs ih =>
    rw [dropTrailing] at h
    cases hdt : dropTrailing p cs with
    | nil =>
      rw [hdt] at h
      split_ifs at h
      · simp at h
      · exact Or.inl (List.mem_singleton.mp h) |> List.mem_cons.mpr
    | cons r rs =>
      rw [hdt] at h
      rcases List.mem_cons.mp h with h1 | h1
      · exact List.mem_cons.mpr (Or.inl h1)
      · exact List.mem_cons_of_mem c (ih (hdt ▸ h1))

theorem mem_dropWhileP {p : Char → Bool} {x : Char} {l : List Char}
    (h : x ∈ l.dropWhile p) : x ∈ l := by
  induction l with
  | nil => simp at h
  | cons c cs ih =>
    rw [List.dropWhile_cons] at h
    split_ifs at h
    · exact List.mem_cons_of_mem c (ih h)
    · exact h

theorem okWs_tail {c : Char} {cs : List Char} (h : okWs (c :: cs) = true) :
    okWs cs = true := by
  cases cs with
  | nil => rfl
  | cons c2 cs' =>
    rw [okWs] at h
    simp only [Bool.and_eq_true] at h
    exact h.2

theorem okWs_not_tab {c : Char} {cs : List Char} (h : okWs (c :: cs) = true) :
    (c == '\t') = false := by
  cases cs with
  | nil =>
    rw [okWs] at h
    simpa using h
  | cons c2 cs' =>
    rw [okWs] at h
    simp only [Bool.and_eq_true, Bool.not_eq_eq_eq_not, Bool.not_true] at h
    exact h.1.1

theorem okWs_pair {c c2 : Char} {cs : List Char} (h : okWs (c :: c2 :: cs) = true) :
    (isHT c && isHT c2) = false := by
  rw [okWs] at h
  simp only [Bool.and_eq_true, Bool.not_eq_eq_eq_not, Bool.not_true] at h
  exact h.1.2

theorem okWs_cons_of {c : Char} {X : List Char} (h1 : (c == '\t') = false)
    (h2 : ∀ d r, X = d :: r → (isHT c && isHT d) = false)
    (h3 : okWs X = true) : okWs (c :: X) = true := by
  cases X with
  | nil => simpa [okWs] using h1
  | cons d r =>
    rw [okWs]
    simp only [Bool.and_eq_true, Bool.not_eq_eq_eq_not, Bool.not_true]
    exact ⟨⟨h1, h2 d r rfl⟩, h3⟩

theorem wsCollapse_cons_head (c : Char) (cs : List Char) :
    ∃ r, wsCollapse (c :: cs) = (if isHT c then ' ' else c) :: r := by
  induction cs generalizing c with
  | nil =>
    by_cases h : isHT c
    · exact ⟨[], by rw [wsCollapse]; simp [h]⟩
    · exact ⟨[], by rw [wsCollapse]; simp [h]⟩
  | cons c2 cs' ih =>
    by_cases h1 : isHT c
    · by_cases h2 : isHT c2
      · obtain ⟨r, hr⟩ := ih c2
        rw [if_pos h2] at hr
        exact ⟨r, by rw [wsCollapse]; simp [h1, h2, hr]⟩
      · exact ⟨wsCollapse (c2 :: cs'), by rw [wsCollapse]; simp [h1, h2]⟩
    · exact ⟨wsCollapse (c2 :: cs'), by rw [wsCollapse]; simp [h1]⟩

theorem ht_space_of_not_tab {c : Char} (hht : isHT c = true)
    (htab : (c == '\t') = false) : c = ' ' := by
  simp only [isHT, Bool.or_eq_true, decide_eq_true_eq] at hht
  rcases hht with h | h
  · exact h
  · rw [h] at htab
    simp at htab

theorem wsCollapse_eq_self {l : List Char} (h : okWs l = true) :
    wsCollapse l = l := by
  induction l with
  | nil => rfl
  | cons c cs ih =>
    cases cs with
    | nil =>
      rw [wsCollapse]
      by_cases hc : isHT c
      · rw [if_pos hc]
        have := okWs_not_tab h
        have hsp : c = ' ' := ht_space_of_not_tab hc this
        rw [hsp]
      · rw [if_neg hc]
    | cons c2 cs' =>
      have hpair := okWs_pair h
      have htail := okWs_tail h
      rw [wsCollapse]
      by_cases hc : isHT c
      · have hc2 : isHT c2 = false := by
          cases hh : isHT c2
          · rfl
          · rw [hc, hh] at hpair
            simp at hpair
        rw [if_pos hc, if_neg (by simp [hc2]), ih htail]
        have hsp : c = ' ' := ht_space_of_not_tab hc (okWs_not_tab h)
        rw [hsp]
      · rw [if_neg hc, ih htail]

theorem okWs_wsCollapse (l : List Char) : okWs (wsCollapse l) = true := by
  induction l with
  | nil => rfl
  | cons c cs ih =>
    cases cs with
    | nil =>
      rw [wsCollapse]
      by_cases hc : isHT c
      · rw [if_pos hc]
        decide
      · rw [if_neg hc]
        have : (c == '\t') = false := by
          cases hh : c == '\t'
          · rfl
          · exact absurd (by simp [isHT, eq_of_beq hh]) hc
        simpa [okWs] using this
    | cons c2 cs' =>
      rw [wsCollapse]
      by_cases h1 : isHT c
      · by_cases h2 : isHT c2
        · rw [if_pos h1, if_pos h2]
          exact ih
        · rw [if_pos h1, if_neg h2]
          obtain ⟨r, hr⟩ := wsCollapse_cons_head c2 cs'
          rw [if_neg h2] at hr
          rw [hr]
          refine okWs_cons_of (by decide) ?_ (hr ▸ ih)
          intro d rr hd
          rw [List.cons.injEq] at hd
          rw [← hd.1]
          have hc2f : isHT c2 = false := by simpa using h2
          simp [hc2f]
      · rw [if_neg h1]
        obtain ⟨r, hr⟩ := wsCollapse_cons_head c2 cs'
        rw [hr]
        refine okWs_cons_of ?_ ?_ (hr ▸ ih)
        · cases hh : c == '\t'
          · rfl
          · exact absurd (by simp [isHT, eq_of_beq hh]) h1
        · intro d rr hd
          cases hht : isHT c
          · simp
          · exact absurd hht (by simpa using h1)

theorem crFix_tab (c : Char) : ((crFix c) == '\t') = (c == '\t') := by
  by_cases h : c = '\r'
  · rw [crFix, if_pos h, h]
    decide
  · rw [crFix, if_neg h]

theorem crFix_ht (c : Char) : isHT (crFix c) = isHT c := by
  by_cases h : c = '\r'
  · rw [crFix, if_pos h, h]
    decide
  · rw [crFix, if_neg h]

theorem okWs_map_crFix {l : List Char} (h : okWs l = true) :
    okWs (l.map crFix) = true := by
  induction l with
  | nil => rfl
  | cons c cs ih =>
    cases cs with
    | nil =>
      have h1 := okWs_not_tab h
      simp only [List.map_cons, List.map_nil, okWs]
      rw [crFix_tab, h1]
      rfl
    | cons c2 cs' =>
      have h1 := okWs_not_tab h
      have h2 := okWs_pair h
      have ih' := ih (okWs_tail h)
      simp only [List.map_cons] at ih' ⊢
      rw [okWs, crFix_tab, h1, crFix_ht, crFix_ht, h2]
      simpa using ih'

theorem hasNNN_tail {c : Char} {cs : List Char} (h : hasNNN (c :: cs) = false) :
    hasNNN cs = false := by
  rcases cs with _ | ⟨c2, _ | ⟨c3, rest⟩⟩
  · rfl
  · rfl
  · rw [hasNNN] at h
    rcases Bool.or_eq_false_iff.mp h with ⟨_, h2⟩
    exact h2

theorem hasNNN_cons_ne {c : Char} {l : List Char} (hc : c ≠ '\n') :
    hasNNN (c :: l) = hasNNN l := by
  have hb : (c == '\n') = false := by simpa using hc
  rcases l with _ | ⟨c2, _ | ⟨c3, rest⟩⟩
  · rfl
  · rfl
  · rw [hasNNN, hb]
    simp

theorem hasNNN_nl_cons_ne {c : Char} {l : List Char} (hc : c ≠ '\n') :
    hasNNN ('\n' :: c :: l) = hasNNN (c :: l) := by
  have hb : (c == '\n') = false := by simpa using hc
  cases l with
  | nil => rfl
  | cons c3 l' =>
    rw [hasNNN]
    simp [hb]

theorem hasNNN_nl_nl_cons_ne {c : Char} {l : List Char} (hc : c ≠ '\n') :
    hasNNN ('\n' :: '\n' :: c :: l) = hasNNN ('\n' :: c :: l) := by
  have hb : (c == '\n') = false := by simpa using hc
  rw [hasNNN]
  simp [hb]

theorem nlRun_le_two {l : List Char} (h : hasNNN l = false) :
    (l.takeWhile (fun d => d == '\n')).length ≤ 2 := by
  rcases l with _ | ⟨c, l1⟩
  · simp
  · by_cases hc : c = '\n'
    · rcases l1 with _ | ⟨c2, l2⟩
      · simp [List.takeWhile, hc]
      · by_cases hc2 : c2 = '\n'
        · rcases l2 with _ | ⟨c3, l3⟩
          · subst hc hc2
            simp [List.takeWhile]
          · by_cases hc3 : c3 = '\n'
            · exfalso
              subst hc hc2 hc3
              rw [hasNNN] at h
              simp at h
            · subst hc hc2
              have hb : (c3 == '\n') = false := by simpa using hc3
              simp [List.takeWhile, hb]
        · subst hc
          have hb : (c2 == '\n') = false := by simpa using hc2
          simp [List.takeWhile, hb]
    · have hb : (c == '\n') = false := by simpa using hc
      simp [List.takeWhile, hb]

theorem nlFlush_eq_replicate {st : Nat} (h : st ≤ 2) :
    nlFlush st = List.replicate st '\n' := by
  rcases st with _ | _ | _ | st
  · rfl
  · rfl
  · rfl
  · omega

theorem nlCollapseAux_eq_self {l : List Char} :
    ∀ {st : Nat}, st + (l.takeWhile (fun d => d == '\n')).length ≤ 2 →
    hasNNN l = false → nlCollapseAux st l = List.replicate st '\n' ++ l := by
  induction l with
  | nil =>
    intro st hst _
    rw [nlCollapseAux, nlFlush_eq_replicate (by simpa using hst)]
    simp
  | cons c cs ih =>
    intro st hst h
    rw [nlCollapseAux]
    by_cases hc : c = '\n'
    · rw [if_pos hc]
      subst hc
      rw [List.takeWhile_cons] at hst
      simp only [beq_self_eq_true, if_true, List.length_cons] at hst
      have hmin : min (st + 1) 3 = st + 1 := by omega
      rw [hmin, ih (by omega) (hasNNN_tail h)]
      rw [show st + 1 = st + 1 from rfl]
      rw [List.replicate_succ']
      simp
    · rw [if_neg hc]
      have hrun : (cs.takeWhile (fun d => d == '\n')).length ≤ 2 :=
        nlRun_le_two (hasNNN_tail h)
      rw [@ih 0 (by omega) (hasNNN_tail h)]
      have hst2 : st ≤ 2 := by omega
      rw [nlFlush_eq_replicate hst2]
      simp

theorem nlCollapse_eq_self {l : List Char} (h : hasNNN l = false) :
    nlCollapse l = l := by
  have := @nlCollapseAux_eq_self l 0 (by simpa using nlRun_le_two h) h
  simpa [nlCollapse] using this

theorem nlAux_pos_head {st : Nat} (hst : 1 ≤ st) (cs : List Char) :
    ∃ r, nlCollapseAux st cs = '\n' :: r := by
  induction cs generalizing st with
  | nil =>
    rcases st with _ | _ | _ | st
    · omega
    · exact ⟨[], rfl⟩
    · exact ⟨['\n'], rfl⟩
    · exact ⟨['\n'], rfl⟩
  | cons c cs' ih =>
    rw [nlCollapseAux]
    by_cases hc : c = '\n'
    · rw [if_pos hc]
      exact ih (by omega)
    · rw [if_neg hc]
      rcases st with _ | _ | _ | st
      · omega
      · exact ⟨c :: nlCollapseAux 0 cs', rfl⟩
      · exact ⟨'\n' :: c :: nlCollapseAux 0 cs', rfl⟩
      · exact ⟨'\n' :: c :: nlCollapseAux 0 cs', rfl⟩

theorem hasNNN_nlCollapseAux (l : List Char) :
    ∀ st, hasNNN (nlCollapseAux st l) = false := by
  induction l with
  | nil =>
    intro st
    rcases st with _ | _ | _ | st
    · decide
    · decide
    · decide
    · exact (by decide : hasNNN (['\n', '\n']) = false)
  | cons c cs ih =>
    intro st
    rw [nlCollapseAux]
    by_cases hc : c = '\n'
    · rw [if_pos hc]
      exact ih _
    · rw [if_neg hc]
      have hstep : hasNNN (c :: nlCollapseAux 0 cs) = false := by
        rw [hasNNN_cons_ne hc]
        exact ih 0
      rcases st with _ | _ | _ | st
      · simpa [nlFlush] using hstep
      · show hasNNN ('\n' :: c :: nlCollapseAux 0 cs) = false
        rw [hasNNN_nl_cons_ne hc]
        exact hstep
      · show hasNNN ('\n' :: '\n' :: c :: nlCollapseAux 0 cs) = false
        rw [hasNNN_nl_nl_cons_ne hc, hasNNN_nl_cons_ne hc]
        exact hstep
      · show hasNNN ('\n' :: '\n' :: c :: nlCollapseAux 0 cs) = false
        rw [hasNNN_nl_nl_cons_ne hc, hasNNN_nl_cons_ne hc]
        exact hstep

theorem okWs_nlCollapseAux {l : List Char} (h : okWs l = true) :
    ∀ st, okWs (nlCollapseAux st l) = true := by
  induction l with
  | nil =>
    intro st
    rcases st with _ | _ | _ | st
    · decide
    · decide
    · decide
    · exact (by decide : okWs (['\n', '\n']) = true)
  | cons c cs ih =>
    intro st
    rw [nlCollapseAux]
    by_cases hc : c = '\n'
    · rw [if_pos hc]
      exact ih (okWs_tail h) _
    · rw [if_neg hc]
      have hcore : okWs (c :: nlCollapseAux 0 cs) = true := by
        refine okWs_cons_of (okWs_not_tab h) ?_ (ih (okWs_tail h) 0)
        intro d r hd
        cases cs with
        | nil => simp [nlCollapseAux, nlFlush] at hd
        | cons c2 cs' =>
          by_cases hc2 : c2 = '\n'
          · rw [nlCollapseAux, if_pos hc2] at hd
            obtain ⟨r', hr'⟩ := @nlAux_pos_head (min (0 + 1) 3) (by omega) cs'
            rw [hr'] at hd
            rw [List.cons.injEq] at hd
            rw [← hd.1]
            rw [show isHT '\n' = false from rfl, Bool.and_false]
          · rw [nlCollapseAux, if_neg hc2] at hd
            simp only [nlFlush, List.nil_append, List.cons.injEq] at hd
            rw [← hd.1, okWs_pair h]
      rcases st with _ | _ | _ | st
      · simpa [nlFlush] using hcore
      · exact okWs_cons_of (by decide) (fun d r hd => by
          rw [show isHT '\n' = false from rfl, Bool.false_and]) hcore
      · refine okWs_cons_of (by decide) (fun d r hd => by
          rw [show isHT '\n' = false from rfl, Bool.false_and]) ?_
        exact okWs_cons_of (by decide) (fun d r hd => by
          rw [show isHT '\n' = false from rfl, Bool.false_and]) hcore
      · refine okWs_cons_of (by decide) (fun d r hd => by
          rw [show isHT '\n' = false from rfl, Bool.false_and]) ?_
        exact okWs_cons_of (by decide) (fun d r hd => by
          rw [show isHT '\n' = false from rfl, Bool.false_and]) hcore

theorem okWs_dropWhile {p : Char → Bool} {l : List Char} (h : okWs l = true) :
    okWs (l.dropWhile p) = true := by
  induction l with
  | nil => simpa using h
  | cons c cs ih =>
    rw [List.dropWhile_cons]
    split_ifs
    · exact ih (okWs_tail h)
    · exact h

theorem hasNNN_dropWhile {p : Char → Bool} {l : List Char} (h : hasNNN l = false) :
    hasNNN (l.dropWhile p) = false := by
  induction l with
  | nil => simpa using h
  | cons c cs ih =>
    rw [List.dropWhile_cons]
    split_ifs
    · exact ih (hasNNN_tail h)
    · exact h

theorem okWs_dropTrailing {p : Char → Bool} {l : List Char} (h : okWs l = true) :
    okWs (dropTrailing p l) = true := by
  induction l with
  | nil => simpa [dropTrailing] using h
  | cons c cs ih =>
    rw [dropTrailing]
    cases hdt : dropTrailing p cs with
    | nil =>
      split_ifs
      · rfl
      · simpa [okWs] using okWs_not_tab h
    | cons r rs =>
      have hok : okWs (r :: rs) = true := hdt ▸ ih (okWs_tail h)
      refine okWs_cons_of (okWs_not_tab h) ?_ hok
      intro d rr hd
      rw [List.cons.injEq] at hd
      cases cs with
      | nil =>
        rw [dropTrailing] at hdt
        simp at hdt
      | cons c2 cs' =>
        rcases dropTrailing_shape p c2 cs' with hsh | ⟨r', hsh⟩
        · rw [hsh] at hdt
          exact absurd hdt (by simp)
        · rw [hsh] at hdt
          rw [List.cons.injEq] at hdt
          rw [← hd.1, ← hdt.1]
          exact okWs_pair h

theorem hasNNN_dropTrailing {p : Char → Bool} {l : List Char}
    (h : hasNNN l = false) : hasNNN (dropTrailing p l) = false := by
  induction l with
  | nil => simpa [dropTrailing] using h
  | cons c cs ih =>
    rw [dropTrailing]
    cases hdt : dropTrailing p cs with
    | nil =>
      split_ifs
      · rfl
      · rfl
    | cons r rs =>
      have hrec : hasNNN (r :: rs) = false := hdt ▸ ih (hasNNN_tail h)
      cases rs with
      | nil => rfl
      | cons r2 rs' =>
        rw [hasNNN]
        apply Bool.or_eq_false_iff.mpr
        refine ⟨?_, hrec⟩
        cases cs with
        | nil =>
          rw [dropTrailing] at hdt
          simp at hdt
        | cons c2 cs' =>
          cases hdt' : dropTrailing p cs' with
          | nil =>
            rw [dropTrailing, hdt'] at hdt
            split_ifs at hdt
            all_goals simp at hdt
          | cons u us =>
            rw [dropTrailing, hdt'] at hdt
            rw [List.cons.injEq] at hdt
            cases cs' with
            | nil =>
              rw [dropTrailing] at hdt'
              simp at hdt'
            | cons c3 cs'' =>
              rcases dropTrailing_shape p c3 cs'' with hsh | ⟨w, hsh⟩
              · rw [hsh] at hdt'
                exact absurd hdt' (by simp)
              · rw [hsh] at hdt'
                rw [List.cons.injEq] at hdt'
                have hr : r = c2 := hdt.1.symm
                have hr2 : r2 = c3 := by
                  have h2 := hdt.2
                  rw [List.cons.injEq] at h2
                  rw [← h2.1, ← hdt'.1]
                rw [hasNNN] at h
                rcases Bool.or_eq_false_iff.mp h with ⟨h1, _⟩
                rw [hr, hr2]
                exact h1

theorem stripPred_idem (p : Char → Bool) (l : List Char) :
    dropTrailing p ((dropTrailing p (l.dropWhile p)).dropWhile p) =
      dropTrailing p (l.dropWhile p) := by
  cases hx : l.dropWhile p with
  | nil => simp [dropTrailing]
  | cons c cs =>
    have hc : p c = false := dropWhile_head_not hx
    rcases dropTrailing_shape p c cs with h1 | ⟨r, h1⟩
    · rw [h1]
      simp [dropTrailing]
    · rw [h1, List.dropWhile_cons]
      simp only [hc, Bool.false_eq_true, if_false]
      rw [← h1, dropTrailing_idem]

theorem pyStrip_idem (l : List Char) : pyStrip (pyStrip l) = pyStrip l :=
  stripPred_idem isSpaceChar l

/-- C8: `clean_text` is idempotent: its output contains no null byte, no
tab, no adjacent spaces, no carriage return, no triple newline and no
surrounding whitespace, and each cleaning stage is the identity on such
text. -/
theorem c8_clean_text_idempotent (t : String) :
    clean_text (clean_text t) = clean_text t := by
  have main : ∀ l : List Char,
      pyStrip (nlCollapse (List.map crFix (wsCollapse (List.map nulFix
        (pyStrip (nlCollapse (List.map crFix (wsCollapse (List.map nulFix l))))))))) =
      pyStrip (nlCollapse (List.map crFix (wsCollapse (List.map nulFix l)))) := by
    intro l
    set x5 := pyStrip (nlCollapse (List.map crFix (wsCollapse (List.map nulFix l)))) with hx5
    have hmemx5 : ∀ x ∈ x5,
        x ∈ nlCollapse (List.map crFix (wsCollapse (List.map nulFix l))) :=
      fun x hx => mem_dropWhileP (mem_dropTrailing hx)
    have hnonul : ∀ x ∈ x5, x ≠ '\x00' := by
      intro x hx hbad
      rcases mem_nlCollapseAux (hmemx5 x hx) with h3 | h3
      · obtain ⟨y, hy, hxy⟩ := List.mem_map.mp h3
        have hy0 : y = '\x00' := by
          by_cases hr : y = '\r'
          · rw [crFix, if_pos hr, hbad] at hxy
            exact absurd hxy (by decide)
          · rw [crFix, if_neg hr] at hxy
            rw [hxy, hbad]
        rcases mem_wsCollapse hy with h5 | h5
        · obtain ⟨z, hz, hzy⟩ := List.mem_map.mp h5
          by_cases hzn : z = '\x00'
          · rw [nulFix, if_pos hzn] at hzy
            rw [← hzy] at hy0
            exact absurd hy0 (by decide)
          · rw [nulFix, if_neg hzn] at hzy
            exact hzn (hzy.trans hy0)
        · rw [h5] at hy0
          exact absurd hy0 (by decide)
      · rw [hbad] at h3
        exact absurd h3 (by decide)
    have hnocr : ∀ x ∈ x5, x ≠ '\r' := by
      intro x hx hbad
      rcases mem_nlCollapseAux (hmemx5 x hx) with h3 | h3
      · obtain ⟨y, hy, hxy⟩ := List.mem_map.mp h3
        by_cases hr : y = '\r'
        · rw [crFix, if_pos hr, hbad] at hxy
          exact absurd hxy (by decide)
        · rw [crFix, if_neg hr] at hxy
          exact hr (hxy.trans hbad)
      · rw [hbad] at h3
        exact absurd h3 (by decide)
    have hokws5 : okWs x5 = true :=
      okWs_dropTrailing (okWs_dropWhile
        (okWs_nlCollapseAux (okWs_map_crFix (okWs_wsCollapse _)) 0))
    have hnnn5 : hasNNN x5 = false :=
      hasNNN_dropTrailing (hasNNN_dropWhile (hasNNN_nlCollapseAux _ 0))
    rw [show List.map nulFix x5 = x5 from
      map_eq_self_of (fun c hc => by rw [nulFix, if_neg (hnonul c hc)])]
    rw [wsCollapse_eq_self hokws5]
    rw [show List.map crFix x5 = x5 from
      map_eq_self_of (fun c hc => by rw [crFix, if_neg (hnocr c hc)])]
    rw [nlCollapse_eq_self hnnn5]
    rw [hx5]
    exact pyStrip_idem _
  exact congrArg (fun l => (⟨l⟩ : String)) (main t.data)

end Parser
